import Mathlib

/-!
# Verification of the rexpaintjs-fork codec and layer model

Shallow embedding of the REXPaint image library: the `Color`, `Pixel`,
`Layer` and `Image` classes, the `writeInflatedBuffer` / `loadInflatedBuffer`
codec pair, and the `mergeLayers` compositing algorithm.

JavaScript numbers that may be non-integral (constructor arguments,
coordinates, channel values) are modelled as rationals (`ℚ`);
`Number.isInteger` becomes a denominator test.  A thrown exception is
modelled as `Except.error` / `Option.none` depending on whether the
surrounding claim must distinguish throwing from returning `null`.
Buffers are lists of naturals (bytes).
-/

namespace RexPaint

/-- JS `Number.isInteger` on a rational-valued number. -/
def isInt (q : ℚ) : Bool := q.den == 1

/-- Truncation of a nonnegative integer-valued rational to a natural number
(used to index rasters once coordinates have been validated). -/
def toIdx (q : ℚ) : ℕ := q.num.toNat

/-- The `Color` class: three channel slots `_r`, `_g`, `_b`.  The source
stores whatever number was assigned (validation happens after assignment),
so the fields are unconstrained rationals. -/
structure Color where
  r : ℚ
  g : ℚ
  b : ℚ
deriving Repr, DecidableEq

/-- The validation applied by the `Color` constructor and channel setters:
`Number.isInteger(v) && v >= 0 && v <= 255`. -/
def channelOk (v : ℚ) : Bool := isInt v && decide (0 ≤ v) && decide (v ≤ 255)

/-- `new Color(r, g, b)`: assigns the three channels, then throws unless each
is an integer in `[0, 255]`.  A throw discards the object, hence `none`. -/
def Color.mk? (r g b : ℚ) : Option Color :=
  if channelOk r && channelOk g && channelOk b then some ⟨r, g, b⟩ else none

/-- The `r` setter: `this._r = +value` happens *before* the validation check,
so the assignment survives even when the setter throws.  Returns the
post-assignment object and `true` iff no error was thrown. -/
def Color.setR (c : Color) (v : ℚ) : Color × Bool :=
  ({ c with r := v }, channelOk v)

/-- The `g` setter (assign first, then validate). -/
def Color.setG (c : Color) (v : ℚ) : Color × Bool :=
  ({ c with g := v }, channelOk v)

/-- The `b` setter (assign first, then validate). -/
def Color.setB (c : Color) (v : ℚ) : Color × Bool :=
  ({ c with b := v }, channelOk v)

/-- The shapes of argument `Color.from` is given in the source:
an existing `Color`, an array, a string, or anything else. -/
inductive ColorArg where
  | colorV (c : Color)
  | arrV (l : List ℚ)
  | strV (s : String)
  | otherV
deriving Repr, DecidableEq

/-- Value of a hexadecimal digit character, if it is one. -/
def hexDigit? (c : Char) : Option ℕ :=
  if '0' ≤ c ∧ c ≤ '9' then some (c.toNat - 48)
  else if 'a' ≤ c ∧ c ≤ 'f' then some (c.toNat - 87)
  else if 'A' ≤ c ∧ c ≤ 'F' then some (c.toNat - 55)
  else none

/-- The regex `/^#?([0-9a-fA-F]{2})([0-9a-fA-F]{2})([0-9a-fA-F]{2})$/`:
an optional leading `#` followed by exactly six hex digits, split into
three channel values. -/
def parseHexColor (s : String) : Option (ℕ × ℕ × ℕ) :=
  let cs := match s.data with
    | '#' :: rest => rest
    | other => other
  match cs with
  | [c1, c2, c3, c4, c5, c6] => do
    let h1 ← hexDigit? c1
    let h2 ← hexDigit? c2
    let h3 ← hexDigit? c3
    let h4 ← hexDigit? c4
    let h5 ← hexDigit? c5
    let h6 ← hexDigit? c6
    some (16 * h1 + h2, 16 * h3 + h4, 16 * h5 + h6)
  | _ => none

/-- `Color.from(color)`.  The array branch tests
`Array.isArray(color) && color.length == 3 && color.all(...)`: when the
length is 3 the call `color.all` hits a method that does not exist on
JavaScript arrays (the method is named `every`), so a `TypeError` is thrown
(`Except.error`).  Arrays of other lengths fall through to the string test
and end at `return null`.  `Except.error` models a thrown exception,
`Except.ok none` the `return null` fallthrough. -/
def Color.fromArg : ColorArg → Except Unit (Option Color)
  | .colorV c =>
    match Color.mk? c.r c.g c.b with
    | some c' => .ok (some c')
    | none => .error ()
  | .arrV l => if l.length == 3 then .error () else .ok none
  | .strV s =>
    match parseHexColor s with
    | some (r, g, b) =>
      match Color.mk? (r : ℚ) (g : ℚ) (b : ℚ) with
      | some c' => .ok (some c')
      | none => .error ()
    | none => .ok none
  | .otherV => .ok none

/-- The `Pixel` class: a glyph code, foreground and background `Color`s, and
the `transparent` flag stored by the constructor. -/
structure Pixel where
  asciiCode : ℚ
  fg : Color
  bg : Color
  transparent : Bool
deriving Repr, DecidableEq

/-- `new Pixel(char, fg, bg)` with `Color` arguments: stores `fg` and `bg`,
computes `transparent` from the background channels, then throws unless
`char` is a nonnegative integer. -/
def Pixel.mk? (char : ℚ) (fg bg : Color) : Option Pixel :=
  if isInt char && decide (0 ≤ char) then
    some ⟨char, fg, bg, bg.r == 255 && bg.g == 0 && bg.b == 255⟩
  else none

/-- A plain JavaScript field assignment `pixel.bg = c`: the `Pixel` class
defines no setter for `bg`, so the stored `transparent` flag is untouched. -/
def Pixel.setBgField (p : Pixel) (c : Color) : Pixel := { p with bg := c }

/-- `Pixel.from(pixel)` on a `Pixel` instance:
`new Pixel(pixel.asciiCode, Color.from(pixel.fg), Color.from(pixel.bg))`.
Exceptions from either `Color.from` call or from the `Pixel` constructor
propagate. -/
def Pixel.fromPix (p : Pixel) : Except Unit Pixel :=
  match Color.fromArg (.colorV p.fg) with
  | .error _ => .error ()
  | .ok none => .error ()
  | .ok (some fg') =>
    match Color.fromArg (.colorV p.bg) with
    | .error _ => .error ()
    | .ok none => .error ()
    | .ok (some bg') =>
      match Pixel.mk? p.asciiCode fg' bg' with
      | some q => .ok q
      | none => .error ()

/-- `Pixel.from` as invoked inside `mergeLayers`, where the argument is either
a `Pixel` instance or `null`/`undefined` (modelled as `none`): a non-`Pixel`,
non-array argument falls through every branch and yields `null`. -/
def Pixel.fromVal : Option Pixel → Except Unit (Option Pixel)
  | some p => (Pixel.fromPix p).map some
  | none => .ok none

/-- The `Layer` class: dimensions plus a raster of `width*height` slots,
each possibly unset (`none`, JavaScript `undefined`). -/
structure Layer where
  width : ℕ
  height : ℕ
  raster : List (Option Pixel)
deriving Repr, DecidableEq

/-- `new Layer(width, height)`: an empty raster of `width*height` slots. -/
def Layer.new (w h : ℕ) : Layer := ⟨w, h, List.replicate (w * h) none⟩

/-- `Layer.verifyCoordinates(x, y)`: both are integers within
`[0, width) × [0, height)`. -/
def Layer.verifyCoordinates (l : Layer) (x y : ℚ) : Bool :=
  isInt x && isInt y && decide (0 ≤ x) && decide (x < (l.width : ℚ))
    && decide (0 ≤ y) && decide (y < (l.height : ℚ))

/-- The raster index `x + this.width * y` of validated coordinates. -/
def Layer.idx (l : Layer) (x y : ℚ) : ℕ := toIdx x + l.width * toIdx y

/-- `Layer.get(x, y)`: the raster slot at `x + width*y`, or `null` when the
coordinates fail validation.  An in-range unset slot yields JavaScript
`undefined`; both sentinels are modelled as `none`. -/
def Layer.get (l : Layer) (x y : ℚ) : Option Pixel :=
  if l.verifyCoordinates x y then l.raster.getD (l.idx x y) none else none

/-- `Layer.set(x, y, pixel)` with a `Pixel` argument: stores the argument at
`x + width*y` and reports `true`, or leaves the raster untouched and reports
`false` when the coordinates fail validation. -/
def Layer.set (l : Layer) (x y : ℚ) (p : Pixel) : Layer × Bool :=
  if l.verifyCoordinates x y then
    ({ l with raster := l.raster.set (l.idx x y) (some p) }, true)
  else (l, false)

/-- `Layer.set` as invoked with a possibly-`null` argument (the result of
`Pixel.from`): `null` fails the `instanceof Pixel` test, so nothing is
stored and `false` is reported. -/
def Layer.setVal (l : Layer) (x y : ℚ) : Option Pixel → Layer × Bool
  | some p => l.set x y p
  | none => (l, false)

/-- The `Image` class: a version tag (any number the caller passed) and an
ordered list of layers. -/
structure Image where
  version : ℚ
  layers : List Layer
deriving Repr, DecidableEq

/-- `Image.get(l, x, y)` for a natural layer index: delegates to the layer
when it exists, otherwise `null`. -/
def Image.get (img : Image) (l : ℕ) (x y : ℚ) : Option Pixel :=
  match img.layers.get? l with
  | some layer => layer.get x y
  | none => none

/-- `Image.width` under the guard that layers exist (the getter returns
`null` on an empty image; `mergeLayers` only reads it after checking). -/
def Image.widthD (img : Image) : ℕ :=
  match img.layers with
  | [] => 0
  | l :: _ => l.width

/-- `Image.height` under the guard that layers exist. -/
def Image.heightD (img : Image) : ℕ :=
  match img.layers with
  | [] => 0
  | l :: _ => l.height

/-! ## `Image.mergeLayers` -/

/-- The shapes the `layers` argument of `mergeLayers` can take: the string
`"all"`, a single number, an array of numbers, or anything else. -/
inductive MergeArg where
  | all
  | num (n : ℚ)
  | arr (l : List ℚ)
  | other
deriving Repr, DecidableEq

/-- The selection-normalization prefix of `mergeLayers`: `"all"` becomes the
full ascending index list; an integer becomes a singleton when in range and
the empty list otherwise; an array is filtered down to its in-range integer
entries; any other value (including a non-integer number, which fails both
the `Number.isInteger` and `Array.isArray` tests) reaches `return null`,
modelled as `none`. -/
def Image.resolveSelection (img : Image) : MergeArg → Option (List ℕ)
  | .all => some (List.range img.layers.length)
  | .num n =>
    if isInt n then
      if decide (0 ≤ n) && decide (n < (img.layers.length : ℚ)) then
        some [toIdx n]
      else some []
    else none
  | .arr l =>
    some ((l.filter fun q =>
      isInt q && decide (0 ≤ q) && decide (q < (img.layers.length : ℚ))).map toIdx)
  | .other => none

/-- One iteration of the innermost `mergeLayers` loop body:
`let pixel = this.get(index, x, y); if (!res.get(x, y) || !pixel.transparent)
res.set(x, y, Pixel.from(pixel));`.  The `||` short-circuits: when the result
slot is unset the transparency of `pixel` is never read, so a missing source
pixel merely makes the `set` fail silently; when the slot is set and `pixel`
is `null`/`undefined`, reading `.transparent` throws a `TypeError`
(`Except.error`). -/
def Image.mergeCell (img : Image) (index x y : ℕ) (res : Layer) :
    Except Unit Layer :=
  let pixel := img.get index (x : ℚ) (y : ℚ)
  match res.get (x : ℚ) (y : ℚ) with
  | none => do
    let q ← Pixel.fromVal pixel
    .ok (res.setVal (x : ℚ) (y : ℚ) q).1
  | some _ =>
    match pixel with
    | none => .error ()
    | some p =>
      if p.transparent then .ok res
      else do
        let q ← Pixel.fromVal (some p)
        .ok (res.setVal (x : ℚ) (y : ℚ) q).1

/-- The inner `for (x = 0; x < this.width; x++)` loop, processing the first
`xc` cells of row `y` for the selected layer `index`. -/
def Image.mergeX (img : Image) (index y : ℕ) : ℕ → Layer → Except Unit Layer
  | 0, res => .ok res
  | xc + 1, res => do
    let res' ← img.mergeX index y xc res
    img.mergeCell index xc y res'

/-- The `for (y = 0; y < this.height; y++)` loop, processing the first `yc`
rows (each of width `w`) for the selected layer `index`. -/
def Image.mergeY (img : Image) (index w : ℕ) : ℕ → Layer → Except Unit Layer
  | 0, res => .ok res
  | yc + 1, res => do
    let res' ← img.mergeY index w yc res
    img.mergeX index yc w res'

/-- The `for (index of layers)` loop over the resolved selection. -/
def Image.mergeSel (img : Image) (w h : ℕ) :
    List ℕ → Layer → Except Unit Layer
  | [], res => .ok res
  | index :: rest, res => do
    let res' ← img.mergeY index w h res
    img.mergeSel w h rest res'

/-- `Image.mergeLayers(layers)`: returns `null` (`ok none`) when the image
has no layers, when normalization hits the `return null` branch, or when the
resolved selection is empty; otherwise composites the selected layers into a
fresh layer of the image's (layer 0's) dimensions.  A `TypeError` thrown by
the loop body propagates as `Except.error`. -/
def Image.mergeLayers (img : Image) (arg : MergeArg) :
    Except Unit (Option Layer) :=
  if img.layers.length == 0 then .ok none
  else
    match img.resolveSelection arg with
    | none => .ok none
    | some sel =>
      if sel.length == 0 then .ok none
      else
        match img.mergeSel img.widthD img.heightD sel
            (Layer.new img.widthD img.heightD) with
        | .ok res => .ok (some res)
        | .error e => .error e

/-! ## The codec: `writeInflatedBuffer` / `loadInflatedBuffer` -/

/-- Errors `writeInflatedBuffer` can throw: a `TypeError` (reading a field of
an unset raster slot), a `RangeError` from a `Buffer` write (value or offset
out of range), or the explicit internal-consistency `Error` thrown when the
final offset differs from the precomputed size. -/
inductive EncErr where
  | typeError
  | rangeError
  | internalError
deriving Repr, DecidableEq

/-- The four little-endian bytes of a value below `2^32`. -/
def u32Bytes (n : ℕ) : List ℕ :=
  [n % 256, n / 256 % 256, n / 65536 % 256, n / 16777216 % 256]

/-- `Buffer` write primitive: overwrite `bytes.length` bytes at `off`,
failing when the write would run past the end of the buffer. -/
def writeBytesAt (buf : List ℕ) (off : ℕ) (bytes : List ℕ) :
    Option (List ℕ) :=
  if off + bytes.length ≤ buf.length then
    some (buf.take off ++ bytes ++ buf.drop (off + bytes.length))
  else none

/-- Node's validation for `writeUInt32LE`: an integer in `[0, 2^32)`. -/
def u32Ok (v : ℚ) : Bool :=
  isInt v && decide (0 ≤ v) && decide (v < (4294967296 : ℚ))

/-- `buf.writeUInt32LE(v, off)`: validates the value, then writes its four
little-endian bytes; a `RangeError` otherwise. -/
def bufWriteU32 (buf : List ℕ) (v : ℚ) (off : ℕ) : Except EncErr (List ℕ) :=
  if u32Ok v then
    match writeBytesAt buf off (u32Bytes (toIdx v)) with
    | some buf' => .ok buf'
    | none => .error .rangeError
  else .error .rangeError

/-- `buf.writeUInt8(v, off)`: validates that the value is an integer in
`[0, 255]`, then writes the byte. -/
def bufWriteU8 (buf : List ℕ) (v : ℚ) (off : ℕ) : Except EncErr (List ℕ) :=
  if channelOk v then
    match writeBytesAt buf off [toIdx v] with
    | some buf' => .ok buf'
    | none => .error .rangeError
  else .error .rangeError

/-- The ten bytes written for one pixel: glyph code as a 32-bit word, then
the six color channel bytes.  Reading any field of a `null`/`undefined`
pixel throws a `TypeError`. -/
def writePixel (buf : List ℕ) (off : ℕ) :
    Option Pixel → Except EncErr (List ℕ × ℕ)
  | none => .error .typeError
  | some p => do
    let b1 ← bufWriteU32 buf p.asciiCode off
    let b2 ← bufWriteU8 b1 p.fg.r (off + 4)
    let b3 ← bufWriteU8 b2 p.fg.g (off + 5)
    let b4 ← bufWriteU8 b3 p.fg.b (off + 6)
    let b5 ← bufWriteU8 b4 p.bg.r (off + 7)
    let b6 ← bufWriteU8 b5 p.bg.g (off + 8)
    let b7 ← bufWriteU8 b6 p.bg.b (off + 9)
    .ok (b7, off + 10)

/-- The inner `for (y = 0; y < layer.height; y++)` write loop: the first
`yc` pixels of column `x`. -/
def writePixelsY (l : Layer) (x : ℕ) :
    ℕ → List ℕ → ℕ → Except EncErr (List ℕ × ℕ)
  | 0, buf, off => .ok (buf, off)
  | yc + 1, buf, off => do
    let (b, o) ← writePixelsY l x yc buf off
    writePixel b o (l.get (x : ℚ) (yc : ℚ))

/-- The outer `for (x = 0; x < layer.width; x++)` write loop: the first `xc`
columns, each of `l.height` pixels. -/
def writePixelsX (l : Layer) :
    ℕ → List ℕ → ℕ → Except EncErr (List ℕ × ℕ)
  | 0, buf, off => .ok (buf, off)
  | xc + 1, buf, off => do
    let (b, o) ← writePixelsX l xc buf off
    writePixelsY l xc l.height b o

/-- The `for (layer of image.layers)` write loop: width, height, then the
pixel records of each layer in turn. -/
def writeLayers : List Layer → List ℕ → ℕ → Except EncErr (List ℕ × ℕ)
  | [], buf, off => .ok (buf, off)
  | l :: rest, buf, off => do
    let b1 ← bufWriteU32 buf (l.width : ℚ) off
    let b2 ← bufWriteU32 b1 (l.height : ℚ) (off + 4)
    let (b3, o3) ← writePixelsX l l.width b2 (off + 8)
    writeLayers rest b3 o3

/-- The size precomputed by `writeInflatedBuffer`:
`8 + Σ (8 + 10 * width * height)` over the layers. -/
def encodedSize (img : Image) : ℕ :=
  8 + (img.layers.map fun l => 8 + 10 * l.width * l.height).sum

/-- `writeInflatedBuffer(image)`: allocate a zeroed buffer of the precomputed
size, write the header and every layer, and throw an internal-consistency
`Error` when the final offset differs from the precomputed size. -/
def writeInflatedBuffer (img : Image) : Except EncErr (List ℕ) := do
  let size := encodedSize img
  let b1 ← bufWriteU32 (List.replicate size 0) img.version 0
  let b2 ← bufWriteU32 b1 (img.layers.length : ℚ) 4
  let (b3, off) ← writeLayers img.layers b2 8
  if off == size then .ok b3 else .error .internalError

/-- `buf.readUInt8(off)`: the byte at `off`, or a thrown `RangeError` when
out of bounds (`none`). -/
def readU8 (buf : List ℕ) (off : ℕ) : Option ℕ := buf.get? off

/-- `buf.readUInt32LE(off)`: the little-endian 32-bit word at `off`. -/
def readU32 (buf : List ℕ) (off : ℕ) : Option ℕ := do
  let b0 ← buf.get? off
  let b1 ← buf.get? (off + 1)
  let b2 ← buf.get? (off + 2)
  let b3 ← buf.get? (off + 3)
  some (b0 + 256 * b1 + 65536 * b2 + 16777216 * b3)

/-- The ten-byte pixel record read by `loadInflatedBuffer`: glyph code, the
foreground `Color`, the background `Color`, then `new Pixel(...)`. -/
def readPixel (buf : List ℕ) (off : ℕ) : Option (Pixel × ℕ) := do
  let ascii ← readU32 buf off
  let r1 ← readU8 buf (off + 4)
  let g1 ← readU8 buf (off + 5)
  let b1 ← readU8 buf (off + 6)
  let fg ← Color.mk? (r1 : ℚ) (g1 : ℚ) (b1 : ℚ)
  let r2 ← readU8 buf (off + 7)
  let g2 ← readU8 buf (off + 8)
  let b2 ← readU8 buf (off + 9)
  let bg ← Color.mk? (r2 : ℚ) (g2 : ℚ) (b2 : ℚ)
  let p ← Pixel.mk? (ascii : ℚ) fg bg
  some (p, off + 10)

/-- The inner `for (y = 0; y < layer.height; y++)` read loop: the first `yc`
pixels of column `x`, each stored with `layer.set(x, y, pixel)`. -/
def readPixelsY (buf : List ℕ) (x : ℕ) :
    ℕ → Layer → ℕ → Option (Layer × ℕ)
  | 0, l, off => some (l, off)
  | yc + 1, l, off => do
    let (l', o') ← readPixelsY buf x yc l off
    let (p, o'') ← readPixel buf o'
    some ((l'.set (x : ℚ) (yc : ℚ) p).1, o'')

/-- The outer `for (x = 0; x < layer.width; x++)` read loop. -/
def readPixelsX (buf : List ℕ) (h : ℕ) :
    ℕ → Layer → ℕ → Option (Layer × ℕ)
  | 0, l, off => some (l, off)
  | xc + 1, l, off => do
    let (l', o') ← readPixelsX buf h xc l off
    readPixelsY buf xc h l' o'

/-- The `for (i = 0; i < numLayers; i++)` read loop: width, height, then the
pixel grid of each layer. -/
def readLayers (buf : List ℕ) : ℕ → ℕ → Option (List Layer × ℕ)
  | 0, off => some ([], off)
  | k + 1, off => do
    let w ← readU32 buf off
    let h ← readU32 buf (off + 4)
    let (l, o') ← readPixelsX buf h w (Layer.new w h) (off + 8)
    let (rest, o'') ← readLayers buf k o'
    some (l :: rest, o'')

/-- `loadInflatedBuffer(buffer)`: version, layer count, then the layers. -/
def loadInflatedBuffer (buf : List ℕ) : Option Image := do
  let v ← readU32 buf 0
  let n ← readU32 buf 4
  let (ls, _) ← readLayers buf n 8
  some ⟨(v : ℚ), ls⟩

/-! ## Well-formedness predicates -/

/-- All three channels of a `Color` pass the constructor's validation. -/
def ColorWf (c : Color) : Bool := channelOk c.r && channelOk c.g && channelOk c.b

/-- A `Pixel` is well formed when its glyph code is a nonnegative integer,
both colors satisfy the channel invariant, and the stored `transparent` flag
agrees with the magenta-background predicate (the invariant the constructor
establishes). -/
def PixelWf (p : Pixel) : Bool :=
  isInt p.asciiCode && decide (0 ≤ p.asciiCode)
    && ColorWf p.fg && ColorWf p.bg
    && (p.transparent == (p.bg.r == 255 && p.bg.g == 0 && p.bg.b == 255))

/-- A well-formed pixel whose glyph code also fits the 4-byte wire field. -/
def PixelWf32 (p : Pixel) : Bool :=
  PixelWf p && decide (p.asciiCode < (4294967296 : ℚ))

/-- A raster slot that is populated with a well-formed pixel. -/
def slotWf (op : Option Pixel) : Bool :=
  match op with
  | some p => PixelWf p
  | none => false

/-- A raster slot populated with a well-formed, 32-bit-encodable pixel. -/
def slotWf32 (op : Option Pixel) : Bool :=
  match op with
  | some p => PixelWf32 p
  | none => false

/-- A layer whose raster is fully populated with well-formed pixels and
whose dimensions fit the 4-byte wire fields. -/
def LayerWf32 (l : Layer) : Bool :=
  decide (l.width < 4294967296) && decide (l.height < 4294967296)
    && (l.raster.length == l.width * l.height) && l.raster.all slotWf32

/-- An image every part of which the encoder accepts: version and layer
count fit 32 bits and every layer is fully populated and well formed. -/
def ImageWf32 (img : Image) : Bool :=
  u32Ok img.version && decide (img.layers.length < 4294967296)
    && img.layers.all LayerWf32

/-! ## Reference-semantics model of the raster

The value-based `Layer` above cannot express JavaScript object identity, but
`Layer.set` stores `this.raster[x + this.width * y] = pixel` — the caller's
object itself.  To reason about aliasing we repeat `set`/`get` over an
explicit store of `Pixel` objects: raster slots hold store addresses, and
mutating a stored object is an update of the store. -/

/-- A store of `Pixel` objects; an address is an index into `cells`. -/
structure PixelStore where
  cells : List Pixel
deriving Repr, DecidableEq

/-- A `Layer` whose raster slots hold references to `Pixel` objects. -/
structure RefLayer where
  width : ℕ
  height : ℕ
  raster : List (Option ℕ)
deriving Repr, DecidableEq

/-- `new Layer(width, height)` in the reference model. -/
def RefLayer.new (w h : ℕ) : RefLayer := ⟨w, h, List.replicate (w * h) none⟩

/-- `Layer.verifyCoordinates` in the reference model (same test). -/
def RefLayer.verifyCoordinates (l : RefLayer) (x y : ℚ) : Bool :=
  isInt x && isInt y && decide (0 ≤ x) && decide (x < (l.width : ℚ))
    && decide (0 ≤ y) && decide (y < (l.height : ℚ))

/-- `Layer.set(x, y, pixel)`: the reference to the caller's object is stored
directly in the raster — the source performs no clone. -/
def RefLayer.set (l : RefLayer) (x y : ℚ) (ref : ℕ) : RefLayer × Bool :=
  if l.verifyCoordinates x y then
    ({ l with raster := l.raster.set (toIdx x + l.width * toIdx y) (some ref) },
      true)
  else (l, false)

/-- `Layer.get(x, y)` in the reference model: dereference the stored
address through the store. -/
def RefLayer.get (s : PixelStore) (l : RefLayer) (x y : ℚ) : Option Pixel :=
  if l.verifyCoordinates x y then
    (l.raster.getD (toIdx x + l.width * toIdx y) none).bind (s.cells.get? ·)
  else none

/-- The caller mutates their pixel's foreground red channel
(`p.fg.r = v`): the `Color` `r` setter runs on the shared object, assigning
before validating; `true` means no error was thrown. -/
def PixelStore.setFgR (s : PixelStore) (ref : ℕ) (v : ℚ) :
    PixelStore × Bool :=
  match s.cells.get? ref with
  | some p =>
    (⟨s.cells.set ref { p with fg := { p.fg with r := v } }⟩, channelOk v)
  | none => (s, false)

/-! ## Spec-side characterizations -/

/-- A placeholder pixel for total lookups; hypotheses rule it out. -/
def defaultPixel : Pixel := ⟨0, ⟨0, 0, 0⟩, ⟨0, 0, 0⟩, false⟩

/-- The source pixel `mergeLayers` fetches for layer `index` at `(x, y)`. -/
def srcPixel (img : Image) (index x y : ℕ) : Pixel :=
  (img.get index (x : ℚ) (y : ℚ)).getD defaultPixel

/-- One compositing step of the merge algorithm, as §4.4 of the spec words
it: the source pixel is written iff the accumulated slot is still unset or
the source pixel is non-transparent. -/
def mergeStep (src : Pixel) (acc : Option Pixel) : Option Pixel :=
  match acc with
  | none => some src
  | some _ => if src.transparent then acc else some src

/-- The ten wire bytes of one pixel record. -/
def pixelBytes (p : Pixel) : List ℕ :=
  u32Bytes (toIdx p.asciiCode)
    ++ [toIdx p.fg.r, toIdx p.fg.g, toIdx p.fg.b,
        toIdx p.bg.r, toIdx p.bg.g, toIdx p.bg.b]

/-- The pixel records of the first `yc` cells of column `x`, in the
column-major order both codec loops use. -/
def pixColBytes (l : Layer) (x : ℕ) : ℕ → List ℕ
  | 0 => []
  | yc + 1 =>
    pixColBytes l x yc ++ pixelBytes ((l.get (x : ℚ) (yc : ℚ)).getD defaultPixel)

/-- The pixel records of the first `xc` columns of a layer. -/
def pixAllBytes (l : Layer) : ℕ → List ℕ
  | 0 => []
  | xc + 1 => pixAllBytes l xc ++ pixColBytes l xc l.height

/-- The full wire record of one layer. -/
def layerBytes (l : Layer) : List ℕ :=
  u32Bytes l.width ++ u32Bytes l.height ++ pixAllBytes l l.width

/-- The back-to-back layer records of an image. -/
def layersBytes : List Layer → List ℕ
  | [] => []
  | l :: rest => layerBytes l ++ layersBytes rest

/-- The whole (inflated) wire stream of an image. -/
def imageBytes (img : Image) : List ℕ :=
  u32Bytes (toIdx img.version) ++ u32Bytes img.layers.length
    ++ layersBytes img.layers

/-! ## Concrete inputs used by witnesses and counterexamples -/

/-- An opaque pixel (black background). -/
def pxOpaque : Pixel := ⟨15, ⟨255, 255, 255⟩, ⟨0, 0, 0⟩, false⟩

/-- The designated transparent pixel (magenta background). -/
def pxTrans : Pixel := ⟨32, ⟨0, 0, 0⟩, ⟨255, 0, 255⟩, true⟩

/-- A two-layer 1×1 image: an opaque pixel under a transparent one. -/
def wImgMerge : Image :=
  ⟨0, [⟨1, 1, [some pxOpaque]⟩, ⟨1, 1, [some pxTrans]⟩]⟩

/-- A one-layer 1×1 image for the codec witnesses. -/
def wImgCodec : Image := ⟨7, [⟨1, 1, [some pxOpaque]⟩]⟩

/-- A 2×1 fully populated bottom layer over which a smaller 1×1 layer is
merged: the shape that makes `mergeLayers` throw. -/
def wImgMismatch : Image :=
  ⟨0, [⟨2, 1, [some pxOpaque, some pxOpaque]⟩, ⟨1, 1, [some pxOpaque]⟩]⟩

/-! ## Basic lemmas about the number model and the layer raster -/

theorem isInt_natCast (n : ℕ) : isInt (n : ℚ) = true := by
  simp [isInt]

theorem toIdx_natCast (n : ℕ) : toIdx (n : ℚ) = n := by
  simp [toIdx]

theorem natCast_toIdx {q : ℚ} (h1 : isInt q = true) (h2 : 0 ≤ q) :
    ((toIdx q : ℕ) : ℚ) = q := by
  have hden : q.den = 1 := by simpa [isInt] using h1
  have hnum : (0 : ℤ) ≤ q.num := Rat.num_nonneg.2 h2
  have h3 : ((q.num.toNat : ℕ) : ℚ) = ((q.num : ℤ) : ℚ) := by
    exact_mod_cast congrArg (fun z : ℤ => (z : ℚ)) (Int.toNat_of_nonneg hnum)
  rw [toIdx, h3, (Rat.den_eq_one_iff q).1 hden]

theorem channelOk_natCast {n : ℕ} (h : n ≤ 255) : channelOk (n : ℚ) = true := by
  simp only [channelOk, isInt_natCast, Bool.true_and, Bool.and_eq_true,
    decide_eq_true_eq]
  exact ⟨by positivity, by exact_mod_cast h⟩

theorem channelOk_spec {q : ℚ} (h : channelOk q = true) :
    isInt q = true ∧ 0 ≤ q ∧ q ≤ 255 := by
  simpa [channelOk, Bool.and_eq_true, decide_eq_true_eq, and_assoc] using h

theorem channelOk_toIdx_le {q : ℚ} (h : channelOk q = true) : toIdx q ≤ 255 := by
  obtain ⟨h1, h2, h3⟩ := channelOk_spec h
  have := natCast_toIdx h1 h2
  have : ((toIdx q : ℕ) : ℚ) ≤ ((255 : ℕ) : ℚ) := by rw [this]; exact_mod_cast h3
  exact_mod_cast this

theorem u32Ok_natCast {n : ℕ} (h : n < 4294967296) : u32Ok (n : ℚ) = true := by
  simp only [u32Ok, isInt_natCast, Bool.true_and, Bool.and_eq_true,
    decide_eq_true_eq]
  exact ⟨by positivity, by exact_mod_cast h⟩

theorem u32Ok_spec {q : ℚ} (h : u32Ok q = true) :
    isInt q = true ∧ 0 ≤ q ∧ q < 4294967296 := by
  simpa [u32Ok, Bool.and_eq_true, decide_eq_true_eq, and_assoc] using h

theorem u32Ok_toIdx_lt {q : ℚ} (h : u32Ok q = true) : toIdx q < 4294967296 := by
  obtain ⟨h1, h2, h3⟩ := u32Ok_spec h
  have h4 := natCast_toIdx h1 h2
  have : ((toIdx q : ℕ) : ℚ) < ((4294967296 : ℕ) : ℚ) := by
    rw [h4]; exact_mod_cast h3
  exact_mod_cast this

theorem Layer.verify_natCast (l : Layer) (x y : ℕ) :
    l.verifyCoordinates (x : ℚ) (y : ℚ) = true ↔ x < l.width ∧ y < l.height := by
  simp [Layer.verifyCoordinates, isInt_natCast, Nat.cast_nonneg, Nat.cast_lt]

theorem Layer.idx_natCast (l : Layer) (x y : ℕ) :
    l.idx (x : ℚ) (y : ℚ) = x + l.width * y := by
  simp [Layer.idx, toIdx_natCast]

theorem Layer.get_natCast {l : Layer} {x y : ℕ}
    (hx : x < l.width) (hy : y < l.height) :
    l.get (x : ℚ) (y : ℚ) = l.raster.getD (x + l.width * y) none := by
  rw [Layer.get, if_pos ((Layer.verify_natCast l x y).2 ⟨hx, hy⟩),
    Layer.idx_natCast]

theorem Layer.set_natCast {l : Layer} {x y : ℕ}
    (hx : x < l.width) (hy : y < l.height) (p : Pixel) :
    l.set (x : ℚ) (y : ℚ) p
      = ({ l with raster := l.raster.set (x + l.width * y) (some p) }, true) := by
  rw [Layer.set, if_pos ((Layer.verify_natCast l x y).2 ⟨hx, hy⟩),
    Layer.idx_natCast]

theorem idx_inj {w x x' y y' : ℕ} (hx : x < w) (hx' : x' < w)
    (h : x + w * y = x' + w * y') : x = x' ∧ y = y' := by
  have hw : 0 < w := Nat.lt_of_le_of_lt (Nat.zero_le x) hx
  have hmod := congrArg (· % w) h
  simp only [Nat.add_mul_mod_self_left] at hmod
  rw [Nat.mod_eq_of_lt hx, Nat.mod_eq_of_lt hx'] at hmod
  have hdiv := congrArg (· / w) h
  simp only [Nat.add_mul_div_left _ _ hw] at hdiv
  rw [Nat.div_eq_of_lt hx, Nat.div_eq_of_lt hx'] at hdiv
  omega

theorem getD_set_self {α : Type} {l : List (Option α)} {i : ℕ}
    (h : i < l.length) (a : Option α) : (l.set i a).getD i none = a := by
  simp [List.getD_eq_getElem?_getD, List.getElem?_set_self h]

theorem getD_set_ne {α : Type} {l : List (Option α)} {i j : ℕ}
    (h : i ≠ j) (a : Option α) : (l.set i a).getD j none = l.getD j none := by
  simp [List.getD_eq_getElem?_getD, List.getElem?_set_ne h]

/-! ## C9: boundary rejection in `Layer.get` -/

/-- C9: for every `Layer` and every pair of coordinates that is out of range
or non-integer, `Layer.get` returns the `null` sentinel (`none`); the
embedded function is total, so no exception is possible. -/
theorem layer_get_invalid_coords_returns_null (l : Layer) (x y : ℚ)
    (h : l.verifyCoordinates x y = false) : l.get x y = none := by
  simp [Layer.get, h]

theorem layer_get_invalid_coords_returns_null_witness :
    ((Layer.new 3 3).verifyCoordinates 3 0 = false
      ∧ (Layer.new 3 3).get 3 0 = none)
    ∧ ((Layer.new 3 3).verifyCoordinates (-1) 0 = false
      ∧ (Layer.new 3 3).get (-1) 0 = none)
    ∧ ((Layer.new 3 3).verifyCoordinates (mkRat 3 2) 0 = false
      ∧ (Layer.new 3 3).get (mkRat 3 2) 0 = none) :=
  ⟨⟨by decide, layer_get_invalid_coords_returns_null _ 3 0 (by decide)⟩,
    ⟨by decide, layer_get_invalid_coords_returns_null _ (-1) 0 (by decide)⟩,
    ⟨by decide, layer_get_invalid_coords_returns_null _ (mkRat 3 2) 0 (by decide)⟩⟩

/-! ## C4: the Color channel invariant and the assign-before-validate
setters -/

/-- C4: evaluation of the failing input.  The `r` setter on a freshly
constructed `Color(0,0,0)` given the out-of-range value `300` does throw
(second component `false`), but the assignment `this._r = +value` has
already happened, so the object is left with `_r = 300`, outside the 0–255
range — the mutation fails yet does *not* leave all channels in range. -/
theorem color_setter_assigns_before_validation :
    Color.mk? 0 0 0 = some ⟨0, 0, 0⟩
    ∧ Color.setR ⟨0, 0, 0⟩ 300 = (⟨300, 0, 0⟩, false)
    ∧ channelOk 300 = false := by
  decide

/-! ## C8: `Color.from` on an RGB triple -/

/-- C8: evaluation of the failing input.  `Color.from([1, 2, 3])` reaches
`color.all(...)` — a method JavaScript arrays do not have (`every` is the
real name) — and throws a `TypeError` instead of constructing the color;
the plain constructor on the same channels succeeds. -/
theorem color_from_triple_throws :
    Color.fromArg (.arrV [1, 2, 3]) = .error ()
    ∧ Color.mk? 1 2 3 = some ⟨1, 2, 3⟩ :=
  ⟨rfl, by decide⟩

/-! ## C5: the Pixel transparency flag -/

/-- C5 counterexample: a pixel constructed with a black background has
`transparent = false`; assigning a magenta background afterwards (a plain
field write — the class has no `bg` setter) leaves the stored flag `false`
even though the background now equals the magenta sentinel, so the claimed
at-all-times invariant fails. -/
theorem pixel_transparent_stale_after_bg_change :
    Pixel.mk? 32 ⟨0, 0, 0⟩ ⟨0, 0, 0⟩
      = some ⟨32, ⟨0, 0, 0⟩, ⟨0, 0, 0⟩, false⟩
    ∧ (Pixel.setBgField ⟨32, ⟨0, 0, 0⟩, ⟨0, 0, 0⟩, false⟩ ⟨255, 0, 255⟩).bg
      = ⟨255, 0, 255⟩
    ∧ (Pixel.setBgField ⟨32, ⟨0, 0, 0⟩, ⟨0, 0, 0⟩, false⟩
        ⟨255, 0, 255⟩).transparent = false := by
  decide

/-- C5 (amended): the constructor stores
`transparent = (bg == Color(255, 0, 255))` once, so the invariant holds for
every freshly constructed pixel; the flag is stored rather than derived, and
a later change of the background leaves it untouched. -/
theorem pixel_transparent_at_construction (char : ℚ) (fg bg : Color)
    (p : Pixel) (h : Pixel.mk? char fg bg = some p) :
    p.transparent = (p.bg.r == 255 && p.bg.g == 0 && p.bg.b == 255)
    ∧ ∀ c : Color, (p.setBgField c).transparent = p.transparent := by
  unfold Pixel.mk? at h
  split at h
  · cases h
    exact ⟨rfl, fun c => rfl⟩
  · cases h

theorem pixel_transparent_at_construction_witness :
    Pixel.mk? 32 ⟨0, 0, 0⟩ ⟨255, 0, 255⟩
      = some ⟨32, ⟨0, 0, 0⟩, ⟨255, 0, 255⟩, true⟩
    ∧ ((⟨32, ⟨0, 0, 0⟩, ⟨255, 0, 255⟩, true⟩ : Pixel).transparent
        = ((⟨32, ⟨0, 0, 0⟩, ⟨255, 0, 255⟩, true⟩ : Pixel).bg.r == 255
          && (⟨32, ⟨0, 0, 0⟩, ⟨255, 0, 255⟩, true⟩ : Pixel).bg.g == 0
          && (⟨32, ⟨0, 0, 0⟩, ⟨255, 0, 255⟩, true⟩ : Pixel).bg.b == 255)
      ∧ ∀ c : Color,
        ((⟨32, ⟨0, 0, 0⟩, ⟨255, 0, 255⟩, true⟩ : Pixel).setBgField c).transparent
          = (⟨32, ⟨0, 0, 0⟩, ⟨255, 0, 255⟩, true⟩ : Pixel).transparent) :=
  ⟨by decide,
    pixel_transparent_at_construction 32 ⟨0, 0, 0⟩ ⟨255, 0, 255⟩
      ⟨32, ⟨0, 0, 0⟩, ⟨255, 0, 255⟩, true⟩ (by decide)⟩

/-! ## C6: `Layer.set` aliases the caller's pixel -/

/-- C6: evaluation of the failing input in the reference-semantics model.
`set(0, 0, p)` on a 1×1 layer succeeds and stores the caller's object
itself; the later (valid) mutation `p.fg.r = 10` is then visible through
`layer.get(0, 0)`, contradicting the documented clone-on-set contract. -/
theorem layer_set_aliases_caller_pixel :
    ((RefLayer.new 1 1).set 0 0 0).2 = true
    ∧ RefLayer.get ⟨[⟨32, ⟨0, 0, 0⟩, ⟨0, 0, 0⟩, false⟩]⟩
        ((RefLayer.new 1 1).set 0 0 0).1 0 0
      = some ⟨32, ⟨0, 0, 0⟩, ⟨0, 0, 0⟩, false⟩
    ∧ ((PixelStore.setFgR ⟨[⟨32, ⟨0, 0, 0⟩, ⟨0, 0, 0⟩, false⟩]⟩ 0 10)).2 = true
    ∧ RefLayer.get
        ((PixelStore.setFgR ⟨[⟨32, ⟨0, 0, 0⟩, ⟨0, 0, 0⟩, false⟩]⟩ 0 10)).1
        ((RefLayer.new 1 1).set 0 0 0).1 0 0
      = some ⟨32, ⟨10, 0, 0⟩, ⟨0, 0, 0⟩, false⟩ := by
  decide

/-! ## Merge-loop lemmas -/

theorem idx_lt {w h x y : ℕ} (hx : x < w) (hy : y < h) : x + w * y < w * h :=
  calc x + w * y < w + w * y := by omega
    _ = w * (y + 1) := by ring
    _ ≤ w * h := Nat.mul_le_mul_left w hy

theorem PixelWf_spec {p : Pixel} (h : PixelWf p = true) :
    isInt p.asciiCode = true ∧ 0 ≤ p.asciiCode ∧ ColorWf p.fg = true
    ∧ ColorWf p.bg = true
    ∧ p.transparent = (p.bg.r == 255 && p.bg.g == 0 && p.bg.b == 255) := by
  simpa [PixelWf, Bool.and_eq_true, decide_eq_true_eq, and_assoc]
    using h

theorem slotWf_spec {op : Option Pixel} (h : slotWf op = true) :
    ∃ p, op = some p ∧ PixelWf p = true := by
  cases op with
  | none => simp [slotWf] at h
  | some p => exact ⟨p, rfl, h⟩

theorem Color.fromArg_colorV {c : Color} (h : ColorWf c = true) :
    Color.fromArg (.colorV c) = .ok (some c) := by
  have h' : (channelOk c.r && channelOk c.g && channelOk c.b) = true := h
  have hmk : Color.mk? c.r c.g c.b = some c := by
    rw [Color.mk?, if_pos h']
  simp [Color.fromArg, hmk]

theorem Pixel.mk?_self {p : Pixel} (h : PixelWf p = true) :
    Pixel.mk? p.asciiCode p.fg p.bg = some p := by
  obtain ⟨h1, h2, _, _, h5⟩ := PixelWf_spec h
  rw [Pixel.mk?, if_pos (by simp [h1, h2]), ← h5]

theorem Pixel.fromPix_wf {p : Pixel} (h : PixelWf p = true) :
    Pixel.fromPix p = .ok p := by
  obtain ⟨_, _, h3, h4, _⟩ := PixelWf_spec h
  unfold Pixel.fromPix
  rw [Color.fromArg_colorV h3, Color.fromArg_colorV h4]
  simp [Pixel.mk?_self h]

theorem Pixel.fromVal_wf {p : Pixel} (h : PixelWf p = true) :
    Pixel.fromVal (some p) = .ok (some p) := by
  simp [Pixel.fromVal, Pixel.fromPix_wf h, Except.map]

theorem slot_present {l : Layer} (hlen : l.raster.length = l.width * l.height)
    (hwf : ∀ op ∈ l.raster, slotWf op = true) {x y : ℕ}
    (hx : x < l.width) (hy : y < l.height) :
    ∃ p, l.get (x : ℚ) (y : ℚ) = some p ∧ PixelWf p = true := by
  rw [Layer.get_natCast hx hy]
  have hj : x + l.width * y < l.raster.length := by
    rw [hlen]; exact idx_lt hx hy
  have hmem : l.raster.getD (x + l.width * y) none ∈ l.raster := by
    rw [List.getD_eq_getElem?_getD, List.getElem?_eq_getElem hj]
    exact List.getElem_mem hj
  exact slotWf_spec (hwf _ hmem)

theorem Image.get_layer {img : Image} {index : ℕ} {layer : Layer}
    (h : img.layers.get? index = some layer) (x y : ℚ) :
    img.get index x y = layer.get x y := by
  rw [Image.get, h]

theorem Image.mergeCell_ok {img : Image} {index x y : ℕ} {res : Layer}
    {p : Pixel}
    (hp : img.get index (x : ℚ) (y : ℚ) = some p) (hwf : PixelWf p = true)
    (hx : x < res.width) (hy : y < res.height)
    (hlen : res.raster.length = res.width * res.height) :
    ∃ res', img.mergeCell index x y res = .ok res'
      ∧ res'.width = res.width ∧ res'.height = res.height
      ∧ res'.raster.length = res.raster.length
      ∧ ∀ j, res'.raster.getD j none
          = if j = x + res.width * y
            then mergeStep p (res.raster.getD j none)
            else res.raster.getD j none := by
  have hjlen : x + res.width * y < res.raster.length := by
    rw [hlen]; exact idx_lt hx hy
  have hsetv : res.setVal (x : ℚ) (y : ℚ) (some p)
      = ({ res with raster := res.raster.set (x + res.width * y) (some p) },
          true) :=
    Layer.set_natCast hx hy p
  simp only [Image.mergeCell, hp]
  cases hslot : res.get (x : ℚ) (y : ℚ) with
  | none =>
    rw [Layer.get_natCast hx hy] at hslot
    refine ⟨{ res with raster := res.raster.set (x + res.width * y) (some p) },
      ?_, rfl, rfl, by simp, fun j => ?_⟩
    · rw [Pixel.fromVal_wf hwf]
      show Except.ok (res.setVal (x : ℚ) (y : ℚ) (some p)).1 = _
      rw [hsetv]
    · by_cases hj : j = x + res.width * y
      · subst hj
        rw [getD_set_self hjlen (some p), hslot, if_pos rfl]
        rfl
      · rw [getD_set_ne (fun hne => hj hne.symm), if_neg hj]
  | some q =>
    rw [Layer.get_natCast hx hy] at hslot
    by_cases ht : p.transparent = true
    · refine ⟨res, by rw [if_pos ht], rfl, rfl, rfl, fun j => ?_⟩
      by_cases hj : j = x + res.width * y
      · subst hj
        rw [if_pos rfl, hslot]
        simp [mergeStep, ht]
      · rw [if_neg hj]
    · refine ⟨{ res with
          raster := res.raster.set (x + res.width * y) (some p) },
        ?_, rfl, rfl, by simp, fun j => ?_⟩
      · rw [if_neg ht, Pixel.fromVal_wf hwf]
        show Except.ok (res.setVal (x : ℚ) (y : ℚ) (some p)).1 = _
        rw [hsetv]
      · by_cases hj : j = x + res.width * y
        · subst hj
          rw [getD_set_self hjlen (some p), hslot, if_pos rfl]
          simp [mergeStep, ht]
        · rw [getD_set_ne (fun hne => hj hne.symm), if_neg hj]

theorem Image.mergeX_ok (img : Image) (index y : ℕ) (res : Layer)
    (xc : ℕ) (hxc : xc ≤ res.width) (hy : y < res.height)
    (hlen : res.raster.length = res.width * res.height)
    (hsrc : ∀ x < xc, ∃ p,
        img.get index (x : ℚ) (y : ℚ) = some p ∧ PixelWf p = true) :
    ∃ res', img.mergeX index y xc res = .ok res'
      ∧ res'.width = res.width ∧ res'.height = res.height
      ∧ res'.raster.length = res.raster.length
      ∧ ∀ x' y', x' < res.width → y' < res.height →
          res'.raster.getD (x' + res.width * y') none
            = if y' = y ∧ x' < xc
              then mergeStep (srcPixel img index x' y)
                  (res.raster.getD (x' + res.width * y') none)
              else res.raster.getD (x' + res.width * y') none := by
  induction xc with
  | zero =>
    exact ⟨res, rfl, rfl, rfl, rfl, fun x' y' _ _ => by simp⟩
  | succ xc ih =>
    obtain ⟨res1, h1run, h1w, h1h, h1len, h1pt⟩ :=
      ih (Nat.le_of_succ_le hxc) (fun x hx => hsrc x (Nat.lt_succ_of_lt hx))
    obtain ⟨p, hp, hpwf⟩ := hsrc xc (Nat.lt_succ_self xc)
    have hxlt : xc < res1.width := by rw [h1w]; omega
    have hylt : y < res1.height := by rw [h1h]; exact hy
    have h1len' : res1.raster.length = res1.width * res1.height := by
      rw [h1len, h1w, h1h]; exact hlen
    obtain ⟨res2, h2run, h2w, h2h, h2len, h2pt⟩ :=
      Image.mergeCell_ok hp hpwf hxlt hylt h1len'
    refine ⟨res2, ?_, by rw [h2w, h1w], by rw [h2h, h1h],
      by rw [h2len, h1len], fun x' y' hx' hy' => ?_⟩
    · rw [Image.mergeX, h1run]
      exact h2run
    · have hsp : srcPixel img index xc y = p := by
        rw [srcPixel, hp]; rfl
      rw [h2pt (x' + res.width * y'), h1w]
      by_cases hj : x' + res.width * y' = xc + res.width * y
      · obtain ⟨hx'', hy''⟩ := idx_inj hx' (by omega) hj
        subst hx''; subst hy''
        rw [if_pos hj, h1pt x' y' hx' hy',
          if_neg (by omega), if_pos ⟨rfl, Nat.lt_succ_self x'⟩, hsp]
      · rw [if_neg hj, h1pt x' y' hx' hy']
        by_cases hc : y' = y ∧ x' < xc
        · rw [if_pos hc, if_pos ⟨hc.1, Nat.lt_succ_of_lt hc.2⟩]
        · rw [if_neg hc, if_neg ?_]
          rintro ⟨hy'', hx''⟩
          subst hy''
          have : x' = xc := by
            rcases Nat.lt_succ_iff_lt_or_eq.1 hx'' with h | h
            · exact absurd ⟨rfl, h⟩ hc
            · exact h
          exact hj (by rw [this])

theorem Image.mergeY_ok (img : Image) (index : ℕ) (res : Layer)
    (yc : ℕ) (hyc : yc ≤ res.height)
    (hlen : res.raster.length = res.width * res.height)
    (hsrc : ∀ x < res.width, ∀ y < yc, ∃ p,
        img.get index (x : ℚ) (y : ℚ) = some p ∧ PixelWf p = true) :
    ∃ res', img.mergeY index res.width yc res = .ok res'
      ∧ res'.width = res.width ∧ res'.height = res.height
      ∧ res'.raster.length = res.raster.length
      ∧ ∀ x' y', x' < res.width → y' < res.height →
          res'.raster.getD (x' + res.width * y') none
            = if y' < yc
              then mergeStep (srcPixel img index x' y')
                  (res.raster.getD (x' + res.width * y') none)
              else res.raster.getD (x' + res.width * y') none := by
  induction yc with
  | zero =>
    exact ⟨res, rfl, rfl, rfl, rfl, fun x' y' _ _ => by simp⟩
  | succ yc ih =>
    obtain ⟨res1, h1run, h1w, h1h, h1len, h1pt⟩ :=
      ih (Nat.le_of_succ_le hyc)
        (fun x hx y hy => hsrc x hx y (Nat.lt_succ_of_lt hy))
    have hyclt : yc < res1.height := by rw [h1h]; omega
    have h1len' : res1.raster.length = res1.width * res1.height := by
      rw [h1len, h1w, h1h]; exact hlen
    have hxc1 : res.width ≤ res1.width := by rw [h1w]
    obtain ⟨res2, h2run, h2w, h2h, h2len, h2pt⟩ :=
      Image.mergeX_ok img index yc res1 res.width hxc1 hyclt h1len'
        (fun x hx => hsrc x hx yc (Nat.lt_succ_self yc))
    refine ⟨res2, ?_, by rw [h2w, h1w], by rw [h2h, h1h],
      by rw [h2len, h1len], fun x' y' hx' hy' => ?_⟩
    · rw [Image.mergeY, h1run]
      exact h2run
    · have hx1 : x' < res1.width := by rw [h1w]; exact hx'
      have hy1 : y' < res1.height := by rw [h1h]; exact hy'
      have h2pt' := h2pt x' y' hx1 hy1
      rw [h1w] at h2pt'
      rw [h2pt', h1pt x' y' hx' hy']
      by_cases hyy : y' = yc
      · subst hyy
        rw [if_pos ⟨rfl, hx'⟩, if_neg (by omega), if_pos (Nat.lt_succ_self y')]
      · rw [if_neg (fun hc => hyy hc.1)]
        by_cases hlt : y' < yc
        · rw [if_pos hlt, if_pos (Nat.lt_succ_of_lt hlt)]
        · rw [if_neg hlt, if_neg (by omega)]

theorem Image.mergeSel_ok (img : Image) (sel : List ℕ) (res : Layer)
    (w h : ℕ) (hw : res.width = w) (hh : res.height = h)
    (hlen : res.raster.length = w * h)
    (hsrc : ∀ index ∈ sel, ∀ x < w, ∀ y < h, ∃ p,
        img.get index (x : ℚ) (y : ℚ) = some p ∧ PixelWf p = true) :
    ∃ res', img.mergeSel w h sel res = .ok res'
      ∧ res'.width = w ∧ res'.height = h ∧ res'.raster.length = w * h
      ∧ ∀ x < w, ∀ y < h,
          res'.raster.getD (x + w * y) none
            = sel.foldl
                (fun acc index => mergeStep (srcPixel img index x y) acc)
                (res.raster.getD (x + w * y) none) := by
  induction sel generalizing res with
  | nil =>
    exact ⟨res, rfl, hw, hh, hlen, fun x _ y _ => by simp⟩
  | cons index rest ih =>
    have hlen' : res.raster.length = res.width * res.height := by
      rw [hw, hh]; exact hlen
    have hyc : h ≤ res.height := by rw [hh]
    obtain ⟨res1, h1run, h1w, h1h, h1len, h1pt⟩ :=
      Image.mergeY_ok img index res h hyc hlen'
        (fun x hx y hy =>
          hsrc index (List.mem_cons_self index rest) x (hw ▸ hx) y hy)
    have h1w' : res1.width = w := by rw [h1w, hw]
    have h1h' : res1.height = h := by rw [h1h, hh]
    have h1len'' : res1.raster.length = w * h := by rw [h1len, hlen]
    obtain ⟨res2, h2run, h2w, h2h, h2len, h2pt⟩ :=
      ih res1 h1w' h1h' h1len''
        (fun i hi => hsrc i (List.mem_cons_of_mem index hi))
    refine ⟨res2, ?_, h2w, h2h, h2len, fun x hx y hy => ?_⟩
    · rw [Image.mergeSel]
      have : img.mergeY index w h res = .ok res1 := by rw [← hw]; exact h1run
      rw [this]
      exact h2run
    · rw [h2pt x hx y hy, List.foldl_cons]
      have h1pt' := h1pt x y (by rw [hw]; exact hx) (by rw [hh]; exact hy)
      rw [hw] at h1pt'
      rw [h1pt', if_pos hy]

theorem getD_replicate_none {α : Type} (n j : ℕ) :
    (List.replicate n (none : Option α)).getD j none = none := by
  rw [List.getD_eq_getElem?_getD, List.getElem?_replicate]
  split <;> rfl

theorem Image.resolve_all (img : Image) :
    img.resolveSelection .all = some (List.range img.layers.length) := rfl

theorem Image.resolve_num_natCast {img : Image} {i : ℕ}
    (h : i < img.layers.length) :
    img.resolveSelection (.num (i : ℚ)) = some [i] := by
  simp [Image.resolveSelection, isInt_natCast, Nat.cast_nonneg, Nat.cast_lt,
    h, toIdx_natCast]

theorem Image.resolve_arr_singleton {img : Image} {i : ℕ}
    (h : i < img.layers.length) :
    img.resolveSelection (.arr [(i : ℚ)]) = some [i] := by
  simp [Image.resolveSelection, List.filter, isInt_natCast, Nat.cast_nonneg,
    Nat.cast_lt, h, toIdx_natCast]

theorem filter_cast_map_toIdx (L : List ℕ) (n : ℕ) (h : ∀ i ∈ L, i < n) :
    ((L.map fun (i : ℕ) => (i : ℚ)).filter fun q =>
        isInt q && decide (0 ≤ q) && decide (q < (n : ℚ))).map toIdx = L := by
  induction L with
  | nil => rfl
  | cons a t ih =>
    have ha : a < n := h a (.head t)
    have hcond : (isInt (a : ℚ) && decide (0 ≤ (a : ℚ))
        && decide ((a : ℚ) < (n : ℚ))) = true := by
      simp [isInt_natCast, Nat.cast_nonneg, Nat.cast_lt, ha]
    rw [List.map_cons,
      List.filter_cons_of_pos
        (p := fun q => isInt q && decide (0 ≤ q) && decide (q < (n : ℚ)))
        hcond,
      List.map_cons, toIdx_natCast, ih (fun i hi => h i (.tail a hi))]

theorem Image.resolve_arr_range (img : Image) :
    img.resolveSelection
        (.arr ((List.range img.layers.length).map fun (i : ℕ) => (i : ℚ)))
      = some (List.range img.layers.length) := by
  simp only [Image.resolveSelection]
  congr 1
  exact filter_cast_map_toIdx (List.range img.layers.length)
    img.layers.length (fun i hi => List.mem_range.1 hi)

theorem Image.mergeLayers_resolve_some {img : Image} {arg : MergeArg}
    {sel : List ℕ} (hres : img.resolveSelection arg = some sel)
    (h0 : (img.layers.length == 0) = false)
    (hsel : (sel.length == 0) = false) :
    img.mergeLayers arg
      = match img.mergeSel img.widthD img.heightD sel
            (Layer.new img.widthD img.heightD) with
        | .ok res => .ok (some res)
        | .error e => .error e := by
  rw [Image.mergeLayers, hres]
  simp only [h0, hsel, Bool.false_eq_true, if_false]

theorem Image.mergeLayers_of_resolve_nil {img : Image} {arg : MergeArg}
    (h : img.resolveSelection arg = some []) :
    img.mergeLayers arg = .ok none := by
  rw [Image.mergeLayers, h]
  cases hg : (img.layers.length == 0) <;> rfl

theorem Image.mergeLayers_of_resolve_none {img : Image} {arg : MergeArg}
    (h : img.resolveSelection arg = none) :
    img.mergeLayers arg = .ok none := by
  rw [Image.mergeLayers, h]
  cases hg : (img.layers.length == 0) <;> rfl

/-! ## C2: the compositing rule of `mergeLayers` -/

/-- C2: for an image whose layers all share layer 0's dimensions and are
fully populated with well-formed pixels, and a resolved non-empty selection
of valid indices, `mergeLayers` returns a layer of those dimensions whose
every coordinate holds the fold of the compositing step over the selection
in order: each source pixel is written iff the slot is still unset or the
source pixel is non-transparent, so the slot ends at the last written
pixel. -/
theorem mergeLayers_composites (img : Image) (arg : MergeArg) (sel : List ℕ)
    (hne : img.layers ≠ [])
    (hres : img.resolveSelection arg = some sel) (hselne : sel ≠ [])
    (hdims : ∀ l ∈ img.layers,
        l.width = img.widthD ∧ l.height = img.heightD)
    (hfull : ∀ l ∈ img.layers, l.raster.length = l.width * l.height
        ∧ ∀ op ∈ l.raster, slotWf op = true)
    (hidx : ∀ i ∈ sel, i < img.layers.length) :
    ∃ res, img.mergeLayers arg = .ok (some res)
      ∧ res.width = img.widthD ∧ res.height = img.heightD
      ∧ ∀ x < img.widthD, ∀ y < img.heightD,
          res.get (x : ℚ) (y : ℚ)
            = sel.foldl
                (fun acc index => mergeStep (srcPixel img index x y) acc)
                none := by
  have hlen0 : (img.layers.length == 0) = false := by
    simp [List.length_eq_zero, hne]
  have hsel0 : (sel.length == 0) = false := by
    simp [List.length_eq_zero, hselne]
  have hsrc : ∀ index ∈ sel, ∀ x < img.widthD, ∀ y < img.heightD,
      ∃ p, img.get index (x : ℚ) (y : ℚ) = some p ∧ PixelWf p = true := by
    intro index hindex x hx y hy
    have hi := hidx index hindex
    have hlayer : img.layers.get? index = some img.layers[index] := by
      rw [List.get?_eq_getElem?]
      exact List.getElem?_eq_getElem hi
    have hmem : img.layers[index] ∈ img.layers := List.getElem_mem hi
    obtain ⟨hdw, hdh⟩ := hdims _ hmem
    obtain ⟨hflen, hfwf⟩ := hfull _ hmem
    rw [Image.get_layer hlayer]
    exact slot_present hflen hfwf (by rw [hdw]; exact hx)
      (by rw [hdh]; exact hy)
  obtain ⟨res, hrun, hw, hh, hlen, hpt⟩ :=
    Image.mergeSel_ok img sel (Layer.new img.widthD img.heightD)
      img.widthD img.heightD rfl rfl (by simp [Layer.new]) hsrc
  refine ⟨res, ?_, hw, hh, fun x hx y hy => ?_⟩
  · rw [Image.mergeLayers_resolve_some hres hlen0 hsel0, hrun]
  · have hx' : x < res.width := by rw [hw]; exact hx
    have hy' : y < res.height := by rw [hh]; exact hy
    rw [Layer.get_natCast hx' hy', hw, hpt x hx y hy]
    simp only [Layer.new, getD_replicate_none]

theorem mergeLayers_composites_witness :
    wImgMerge.resolveSelection (.arr [0, 1]) = some [0, 1]
    ∧ ∃ res, wImgMerge.mergeLayers (.arr [0, 1]) = .ok (some res)
      ∧ res.width = wImgMerge.widthD ∧ res.height = wImgMerge.heightD
      ∧ ∀ x < wImgMerge.widthD, ∀ y < wImgMerge.heightD,
          res.get (x : ℚ) (y : ℚ)
            = [0, 1].foldl
                (fun acc index => mergeStep (srcPixel wImgMerge index x y) acc)
                none :=
  ⟨by decide,
    mergeLayers_composites wImgMerge (.arr [0, 1]) [0, 1] (by decide)
      (by decide) (by decide) (by decide) (by decide) (by decide)⟩

/-! ## C7: selection normalization in `mergeLayers` -/

/-- C7: `mergeLayers(i)` for an in-range integer agrees with
`mergeLayers([i])`; `mergeLayers("all")` agrees with the full ascending
index list; an out-of-range single index, the empty list, a list with only
non-integer or out-of-range entries, and an image with no layers all
produce the `null` failure result. -/
theorem mergeLayers_selection_normalization (img : Image) :
    (∀ i : ℕ, i < img.layers.length →
        img.mergeLayers (.num (i : ℚ)) = img.mergeLayers (.arr [(i : ℚ)]))
    ∧ img.mergeLayers .all
        = img.mergeLayers
            (.arr ((List.range img.layers.length).map fun (i : ℕ) => (i : ℚ)))
    ∧ (∀ q : ℚ, isInt q = true →
        ¬(0 ≤ q ∧ q < (img.layers.length : ℚ)) →
        img.mergeLayers (.num q) = .ok none)
    ∧ img.mergeLayers (.arr []) = .ok none
    ∧ (∀ l : List ℚ,
        (∀ q ∈ l, ¬(isInt q = true ∧ 0 ≤ q ∧ q < (img.layers.length : ℚ))) →
        img.mergeLayers (.arr l) = .ok none)
    ∧ (img.layers = [] → ∀ arg, img.mergeLayers arg = .ok none) := by
  refine ⟨?_, ?_, ?_, ?_, ?_, ?_⟩
  · intro i hi
    rw [Image.mergeLayers, Image.mergeLayers, Image.resolve_num_natCast hi,
      Image.resolve_arr_singleton hi]
  · rw [Image.mergeLayers, Image.mergeLayers, Image.resolve_all,
      Image.resolve_arr_range]
  · intro q hq hnq
    refine Image.mergeLayers_of_resolve_nil ?_
    have hcond : (decide (0 ≤ q)
        && decide (q < (img.layers.length : ℚ))) = false := by
      rw [Bool.eq_false_iff]
      intro hc
      exact hnq (by simpa [Bool.and_eq_true, decide_eq_true_eq] using hc)
    simp only [Image.resolveSelection, hq, if_true, hcond,
      Bool.false_eq_true, if_false]
  · exact Image.mergeLayers_of_resolve_nil rfl
  · intro l hl
    refine Image.mergeLayers_of_resolve_nil ?_
    have hfil : (l.filter fun q => isInt q && decide (0 ≤ q)
        && decide (q < (img.layers.length : ℚ))) = [] := by
      rw [List.filter_eq_nil_iff]
      intro q hq hcond
      exact hl q hq
        (by simpa [Bool.and_eq_true, decide_eq_true_eq, and_assoc] using hcond)
    simp only [Image.resolveSelection, hfil, List.map_nil]
  · intro h arg
    rw [Image.mergeLayers, h]
    rfl

theorem mergeLayers_selection_normalization_witness :
    (0 < wImgMerge.layers.length
      ∧ wImgMerge.mergeLayers (.num 0) = wImgMerge.mergeLayers (.arr [0]))
    ∧ wImgMerge.mergeLayers (.num 99) = .ok none
    ∧ wImgMerge.mergeLayers (.arr [99, mkRat 3 2]) = .ok none :=
  ⟨⟨by decide,
      (mergeLayers_selection_normalization wImgMerge).1 0 (by decide)⟩,
    (mergeLayers_selection_normalization wImgMerge).2.2.1 99 (by decide)
      (by decide),
    (mergeLayers_selection_normalization wImgMerge).2.2.2.2.1
      [99, mkRat 3 2] (by decide)⟩

/-! ## C10: totality of `mergeLayers` under the coverage precondition -/

/-- C10: `mergeLayers` on an image whose second selected layer is smaller
than layer 0 throws a `TypeError` once an earlier layer has filled a
coordinate outside the smaller layer's bounds (the slot is set, so
`!pixel.transparent` is evaluated on the `null` fetched pixel); when every
selected layer yields a well-formed pixel at every coordinate of layer 0's
grid, `mergeLayers` never throws. -/
theorem mergeLayers_mismatch_throws_covered_total :
    wImgMismatch.mergeLayers (.arr [0, 1]) = .error ()
    ∧ ∀ (img : Image) (arg : MergeArg),
        (∀ index ∈ (img.resolveSelection arg).getD [],
          ∀ x < img.widthD, ∀ y < img.heightD,
            slotWf (img.get index (x : ℚ) (y : ℚ)) = true) →
        ∃ r, img.mergeLayers arg = .ok r := by
  constructor
  · rfl
  · intro img arg hcov
    cases hg : (img.layers.length == 0) with
    | true => exact ⟨none, by rw [Image.mergeLayers, if_pos hg]⟩
    | false =>
      cases hres : img.resolveSelection arg with
      | none => exact ⟨none, Image.mergeLayers_of_resolve_none hres⟩
      | some sel =>
        cases hsel : (sel.length == 0) with
        | true =>
          refine ⟨none, ?_⟩
          have hnil : sel = [] := by simpa using hsel
          subst hnil
          exact Image.mergeLayers_of_resolve_nil hres
        | false =>
          have hsrc : ∀ index ∈ sel, ∀ x < img.widthD, ∀ y < img.heightD,
              ∃ p, img.get index (x : ℚ) (y : ℚ) = some p
                ∧ PixelWf p = true := by
            intro index hindex x hx y hy
            have hsl := hcov index (by rw [hres]; exact hindex) x hx y hy
            exact slotWf_spec hsl
          obtain ⟨res, hrun, _, _, _, _⟩ :=
            Image.mergeSel_ok img sel (Layer.new img.widthD img.heightD)
              img.widthD img.heightD rfl rfl (by simp [Layer.new]) hsrc
          refine ⟨some res, ?_⟩
          rw [Image.mergeLayers_resolve_some hres hg hsel, hrun]

theorem mergeLayers_mismatch_throws_covered_total_witness :
    (∀ index ∈ (wImgMerge.resolveSelection .all).getD [],
        ∀ x < wImgMerge.widthD, ∀ y < wImgMerge.heightD,
          slotWf (wImgMerge.get index (x : ℚ) (y : ℚ)) = true)
    ∧ ∃ r, wImgMerge.mergeLayers .all = .ok r :=
  ⟨by decide,
    mergeLayers_mismatch_throws_covered_total.2 wImgMerge .all (by decide)⟩

/-! ## Byte-level lemmas for the codec -/

theorem ok_bind {ε α β : Type} (a : α) (f : α → Except ε β) :
    ((Except.ok a : Except ε α) >>= f) = f a := rfl

theorem some_bind {α β : Type} (a : α) (f : α → Option β) :
    ((some a : Option α) >>= f) = f a := rfl

theorem u32Bytes_length (n : ℕ) : (u32Bytes n).length = 4 := rfl

theorem pixelBytes_length (p : Pixel) : (pixelBytes p).length = 10 := rfl

theorem pixColBytes_length (l : Layer) (x : ℕ) :
    ∀ yc, (pixColBytes l x yc).length = 10 * yc
  | 0 => rfl
  | yc + 1 => by
    rw [pixColBytes, List.length_append, pixColBytes_length l x yc,
      pixelBytes_length]
    omega

theorem pixAllBytes_length (l : Layer) :
    ∀ xc, (pixAllBytes l xc).length = 10 * l.height * xc
  | 0 => rfl
  | xc + 1 => by
    rw [pixAllBytes, List.length_append, pixAllBytes_length l xc,
      pixColBytes_length]
    ring

theorem layerBytes_length (l : Layer) :
    (layerBytes l).length = 8 + 10 * l.width * l.height := by
  rw [layerBytes, List.length_append, List.length_append, u32Bytes_length,
    u32Bytes_length, pixAllBytes_length]
  ring

theorem layersBytes_length :
    ∀ ls : List Layer,
      (layersBytes ls).length
        = (ls.map fun l => 8 + 10 * l.width * l.height).sum
  | [] => rfl
  | l :: rest => by
    rw [layersBytes, List.length_append, layerBytes_length,
      layersBytes_length rest, List.map_cons, List.sum_cons]

theorem imageBytes_length (img : Image) :
    (imageBytes img).length = encodedSize img := by
  rw [imageBytes, encodedSize, List.length_append, List.length_append,
    u32Bytes_length, u32Bytes_length, layersBytes_length]

theorem drop_replicate {α : Type} (a : α) :
    ∀ (k n : ℕ), (List.replicate n a).drop k = List.replicate (n - k) a
  | 0, n => by simp
  | k + 1, 0 => by simp
  | k + 1, n + 1 => by
    rw [List.replicate_succ, List.drop_succ_cons, drop_replicate a k n,
      Nat.succ_sub_succ]

theorem writeBytesAt_append (done : List ℕ) (r : ℕ) (chunk : List ℕ)
    (h : chunk.length ≤ r) :
    writeBytesAt (done ++ List.replicate r 0) done.length chunk
      = some (done ++ chunk ++ List.replicate (r - chunk.length) 0) := by
  rw [writeBytesAt, if_pos (by simp; omega)]
  congr 1
  rw [List.take_left, ← List.drop_drop, List.drop_left, drop_replicate,
    List.append_assoc]

theorem bufWriteU32_append {v : ℚ} (hv : u32Ok v = true) (done : List ℕ)
    {r : ℕ} (hr : 4 ≤ r) :
    bufWriteU32 (done ++ List.replicate r 0) v done.length
      = .ok (done ++ u32Bytes (toIdx v) ++ List.replicate (r - 4) 0) := by
  rw [bufWriteU32, if_pos hv,
    writeBytesAt_append done r _ (by rw [u32Bytes_length]; omega)]
  rfl

theorem bufWriteU32_at {v : ℚ} (hv : u32Ok v = true) {buf : List ℕ}
    {off r : ℕ} (done : List ℕ) (hbuf : buf = done ++ List.replicate r 0)
    (hoff : off = done.length) (hr : 4 ≤ r) :
    bufWriteU32 buf v off
      = .ok (done ++ u32Bytes (toIdx v) ++ List.replicate (r - 4) 0) := by
  rw [hbuf, hoff]
  exact bufWriteU32_append hv done hr

theorem bufWriteU8_append {v : ℚ} (hv : channelOk v = true) (done : List ℕ)
    {r : ℕ} (hr : 1 ≤ r) :
    bufWriteU8 (done ++ List.replicate r 0) v done.length
      = .ok (done ++ [toIdx v] ++ List.replicate (r - 1) 0) := by
  rw [bufWriteU8, if_pos hv, writeBytesAt_append done r _ (by simp; omega)]
  rfl

theorem bufWriteU8_at {v : ℚ} (hv : channelOk v = true) {buf : List ℕ}
    {off r : ℕ} (done : List ℕ) (hbuf : buf = done ++ List.replicate r 0)
    (hoff : off = done.length) (hr : 1 ≤ r) :
    bufWriteU8 buf v off
      = .ok (done ++ [toIdx v] ++ List.replicate (r - 1) 0) := by
  rw [hbuf, hoff]
  exact bufWriteU8_append hv done hr

theorem ColorWf_spec {c : Color} (h : ColorWf c = true) :
    channelOk c.r = true ∧ channelOk c.g = true ∧ channelOk c.b = true := by
  simpa [ColorWf, Bool.and_eq_true, and_assoc] using h

theorem PixelWf32_spec {p : Pixel} (h : PixelWf32 p = true) :
    u32Ok p.asciiCode = true
    ∧ channelOk p.fg.r = true ∧ channelOk p.fg.g = true
    ∧ channelOk p.fg.b = true
    ∧ channelOk p.bg.r = true ∧ channelOk p.bg.g = true
    ∧ channelOk p.bg.b = true := by
  have h2 : PixelWf p = true ∧ p.asciiCode < 4294967296 := by
    simpa [PixelWf32, Bool.and_eq_true, decide_eq_true_eq] using h
  obtain ⟨ha, hb, hf, hg, _⟩ := PixelWf_spec h2.1
  obtain ⟨hf1, hf2, hf3⟩ := ColorWf_spec hf
  obtain ⟨hg1, hg2, hg3⟩ := ColorWf_spec hg
  refine ⟨?_, hf1, hf2, hf3, hg1, hg2, hg3⟩
  simp [u32Ok, ha, hb, h2.2]

theorem PixelWf32_toPixelWf {p : Pixel} (h : PixelWf32 p = true) :
    PixelWf p = true := by
  have h2 : PixelWf p = true ∧ p.asciiCode < 4294967296 := by
    simpa [PixelWf32, Bool.and_eq_true, decide_eq_true_eq] using h
  exact h2.1

theorem writePixel_append {p : Pixel} (hwf : PixelWf32 p = true)
    (done : List ℕ) {r : ℕ} (hr : 10 ≤ r) :
    writePixel (done ++ List.replicate r 0) done.length (some p)
      = .ok (done ++ pixelBytes p ++ List.replicate (r - 10) 0,
          done.length + 10) := by
  obtain ⟨ha, hf1, hf2, hf3, hg1, hg2, hg3⟩ := PixelWf32_spec hwf
  simp only [writePixel]
  rw [bufWriteU32_append ha done (by omega), ok_bind,
    bufWriteU8_at hf1 (done ++ u32Bytes (toIdx p.asciiCode))
      (by rw [List.append_assoc]) (by simp [u32Bytes_length]) (by omega),
    ok_bind,
    bufWriteU8_at hf2 (done ++ u32Bytes (toIdx p.asciiCode) ++ [toIdx p.fg.r])
      (by rw [List.append_assoc]) (by simp [u32Bytes_length]) (by omega),
    ok_bind,
    bufWriteU8_at hf3
      (done ++ u32Bytes (toIdx p.asciiCode) ++ [toIdx p.fg.r]
        ++ [toIdx p.fg.g])
      (by rw [List.append_assoc]) (by simp [u32Bytes_length]) (by omega),
    ok_bind,
    bufWriteU8_at hg1
      (done ++ u32Bytes (toIdx p.asciiCode) ++ [toIdx p.fg.r]
        ++ [toIdx p.fg.g] ++ [toIdx p.fg.b])
      (by rw [List.append_assoc]) (by simp [u32Bytes_length]) (by omega),
    ok_bind,
    bufWriteU8_at hg2
      (done ++ u32Bytes (toIdx p.asciiCode) ++ [toIdx p.fg.r]
        ++ [toIdx p.fg.g] ++ [toIdx p.fg.b] ++ [toIdx p.bg.r])
      (by rw [List.append_assoc]) (by simp [u32Bytes_length]) (by omega),
    ok_bind,
    bufWriteU8_at hg3
      (done ++ u32Bytes (toIdx p.asciiCode) ++ [toIdx p.fg.r]
        ++ [toIdx p.fg.g] ++ [toIdx p.fg.b] ++ [toIdx p.bg.r]
        ++ [toIdx p.bg.g])
      (by rw [List.append_assoc]) (by simp [u32Bytes_length]) (by omega),
    ok_bind]
  refine congrArg Except.ok (Prod.ext ?_ rfl)
  show _ = done ++ pixelBytes p ++ List.replicate (r - 10) 0
  rw [pixelBytes]
  have hsub : r - 4 - 1 - 1 - 1 - 1 - 1 - 1 = r - 10 := by omega
  simp only [List.append_assoc, List.singleton_append, List.cons_append,
    List.nil_append, hsub]

theorem slotWf32_spec {op : Option Pixel} (h : slotWf32 op = true) :
    ∃ p, op = some p ∧ PixelWf32 p = true := by
  cases op with
  | none => simp [slotWf32] at h
  | some p => exact ⟨p, rfl, h⟩

theorem LayerWf32_spec {l : Layer} (h : LayerWf32 l = true) :
    l.width < 4294967296 ∧ l.height < 4294967296
    ∧ l.raster.length = l.width * l.height
    ∧ ∀ op ∈ l.raster, slotWf32 op = true := by
  simpa [LayerWf32, Bool.and_eq_true, decide_eq_true_eq, and_assoc,
    List.all_eq_true, beq_iff_eq] using h

theorem ImageWf32_spec {img : Image} (h : ImageWf32 img = true) :
    u32Ok img.version = true ∧ img.layers.length < 4294967296
    ∧ ∀ l ∈ img.layers, LayerWf32 l = true := by
  simpa [ImageWf32, Bool.and_eq_true, decide_eq_true_eq, and_assoc,
    List.all_eq_true] using h

theorem slot_present32 {l : Layer}
    (hlen : l.raster.length = l.width * l.height)
    (hwf : ∀ op ∈ l.raster, slotWf32 op = true) {x y : ℕ}
    (hx : x < l.width) (hy : y < l.height) :
    ∃ p, l.get (x : ℚ) (y : ℚ) = some p ∧ PixelWf32 p = true := by
  rw [Layer.get_natCast hx hy]
  have hj : x + l.width * y < l.raster.length := by
    rw [hlen]; exact idx_lt hx hy
  have hmem : l.raster.getD (x + l.width * y) none ∈ l.raster := by
    rw [List.getD_eq_getElem?_getD, List.getElem?_eq_getElem hj]
    exact List.getElem_mem hj
  exact slotWf32_spec (hwf _ hmem)

theorem writePixelsY_append (l : Layer) (x : ℕ) :
    ∀ (yc : ℕ) (done : List ℕ) (r : ℕ), 10 * yc ≤ r →
      (∀ y < yc, ∃ p, l.get (x : ℚ) (y : ℚ) = some p ∧ PixelWf32 p = true) →
      writePixelsY l x yc (done ++ List.replicate r 0) done.length
        = .ok (done ++ pixColBytes l x yc ++ List.replicate (r - 10 * yc) 0,
            done.length + 10 * yc)
  | 0, done, r, _, _ => by
    simp only [writePixelsY]
    simp [pixColBytes]
  | yc + 1, done, r, hr, hsrc => by
    obtain ⟨p, hp, hpwf⟩ := hsrc yc (Nat.lt_succ_self yc)
    simp only [writePixelsY]
    rw [writePixelsY_append l x yc done r (by omega)
        (fun y hy => hsrc y (Nat.lt_succ_of_lt hy)),
      ok_bind, hp]
    show writePixel
        (done ++ pixColBytes l x yc ++ List.replicate (r - 10 * yc) 0)
        (done.length + 10 * yc) (some p) = _
    rw [show done.length + 10 * yc = (done ++ pixColBytes l x yc).length by
      rw [List.length_append, pixColBytes_length]]
    rw [writePixel_append hpwf _ (by omega)]
    refine congrArg Except.ok (Prod.ext ?_ ?_)
    · show done ++ pixColBytes l x yc ++ pixelBytes p
          ++ List.replicate (r - 10 * yc - 10) 0
        = done ++ pixColBytes l x (yc + 1)
          ++ List.replicate (r - 10 * (yc + 1)) 0
      rw [show r - 10 * yc - 10 = r - 10 * (yc + 1) by omega]
      simp only [pixColBytes, hp, Option.getD_some, List.append_assoc]
    · show (done ++ pixColBytes l x yc).length + 10
          = done.length + 10 * (yc + 1)
      rw [List.length_append, pixColBytes_length]
      omega

theorem writePixelsX_append (l : Layer)
    (hfull : ∀ x < l.width, ∀ y < l.height,
        ∃ p, l.get (x : ℚ) (y : ℚ) = some p ∧ PixelWf32 p = true) :
    ∀ (xc : ℕ) (done : List ℕ) (r : ℕ), xc ≤ l.width →
      10 * l.height * xc ≤ r →
      writePixelsX l xc (done ++ List.replicate r 0) done.length
        = .ok (done ++ pixAllBytes l xc
              ++ List.replicate (r - 10 * l.height * xc) 0,
            done.length + 10 * l.height * xc)
  | 0, done, r, _, _ => by
    simp only [writePixelsX]
    simp [pixAllBytes]
  | xc + 1, done, r, hxc, hr => by
    have hexp : 10 * l.height * (xc + 1)
        = 10 * l.height * xc + 10 * l.height := by ring
    simp only [writePixelsX]
    rw [writePixelsX_append l hfull xc done r (by omega) (by omega),
      ok_bind]
    show writePixelsY l xc l.height
        (done ++ pixAllBytes l xc
          ++ List.replicate (r - 10 * l.height * xc) 0)
        (done.length + 10 * l.height * xc) = _
    rw [show done.length + 10 * l.height * xc
        = (done ++ pixAllBytes l xc).length by
      rw [List.length_append, pixAllBytes_length]]
    rw [writePixelsY_append l xc l.height _ _ (by omega)
      (fun y hy => hfull xc (by omega) y hy)]
    refine congrArg Except.ok (Prod.ext ?_ ?_)
    · show done ++ pixAllBytes l xc ++ pixColBytes l xc l.height
          ++ List.replicate (r - 10 * l.height * xc - 10 * l.height) 0
        = done ++ pixAllBytes l (xc + 1)
          ++ List.replicate (r - 10 * l.height * (xc + 1)) 0
      rw [show r - 10 * l.height * xc - 10 * l.height
          = r - 10 * l.height * (xc + 1) by omega]
      simp only [pixAllBytes, List.append_assoc]
    · show (done ++ pixAllBytes l xc).length + 10 * l.height
          = done.length + 10 * l.height * (xc + 1)
      rw [List.length_append, pixAllBytes_length]
      omega

theorem writeLayers_append :
    ∀ (ls : List Layer) (done : List ℕ) (r : ℕ),
      (∀ l ∈ ls, LayerWf32 l = true) → r = (layersBytes ls).length →
      writeLayers ls (done ++ List.replicate r 0) done.length
        = .ok (done ++ layersBytes ls, done.length + r)
  | [], done, r, _, hr => by
    simp only [writeLayers]
    rw [show r = 0 from hr]
    simp [layersBytes]
  | l :: rest, done, r, hwf, hr => by
    obtain ⟨hw, hh, hlen, hslots⟩ := LayerWf32_spec (hwf l (.head rest))
    have hfull : ∀ x < l.width, ∀ y < l.height,
        ∃ p, l.get (x : ℚ) (y : ℚ) = some p ∧ PixelWf32 p = true :=
      fun x hx y hy => slot_present32 hlen hslots hx hy
    have hrlen : r = (layerBytes l).length + (layersBytes rest).length := by
      rw [hr, layersBytes, List.length_append]
    have hlb : (layerBytes l).length = 8 + 10 * l.width * l.height :=
      layerBytes_length l
    have hcomm : 10 * l.height * l.width = 10 * l.width * l.height := by ring
    simp only [writeLayers]
    rw [bufWriteU32_at (u32Ok_natCast hw) done rfl rfl (by omega), ok_bind]
    rw [bufWriteU32_at (u32Ok_natCast hh)
      (done ++ u32Bytes (toIdx (l.width : ℚ))) rfl
      (by rw [List.length_append, u32Bytes_length]) (by omega), ok_bind]
    rw [show done.length + 8
        = (done ++ u32Bytes (toIdx (l.width : ℚ))
            ++ u32Bytes (toIdx (l.height : ℚ))).length by
      simp [u32Bytes_length]]
    rw [writePixelsX_append l hfull l.width
      (done ++ u32Bytes (toIdx (l.width : ℚ))
        ++ u32Bytes (toIdx (l.height : ℚ)))
      (r - 4 - 4) (le_refl _) (by omega)]
    rw [ok_bind]
    show writeLayers rest
        (done ++ u32Bytes (toIdx (l.width : ℚ))
          ++ u32Bytes (toIdx (l.height : ℚ)) ++ pixAllBytes l l.width
          ++ List.replicate (r - 4 - 4 - 10 * l.height * l.width) 0)
        ((done ++ u32Bytes (toIdx (l.width : ℚ))
          ++ u32Bytes (toIdx (l.height : ℚ))).length
            + 10 * l.height * l.width) = _
    have hdone3 : done ++ u32Bytes (toIdx (l.width : ℚ))
          ++ u32Bytes (toIdx (l.height : ℚ)) ++ pixAllBytes l l.width
        = done ++ layerBytes l := by
      simp [layerBytes, toIdx_natCast, List.append_assoc]
    have hr3 : r - 4 - 4 - 10 * l.height * l.width
        = (layersBytes rest).length := by omega
    rw [hdone3, hr3]
    rw [show (done ++ u32Bytes (toIdx (l.width : ℚ))
          ++ u32Bytes (toIdx (l.height : ℚ))).length
            + 10 * l.height * l.width
        = (done ++ layerBytes l).length by
      simp [u32Bytes_length, hlb]
      omega]
    rw [writeLayers_append rest (done ++ layerBytes l)
      ((layersBytes rest).length) (fun x hx => hwf x (.tail l hx)) rfl]
    refine congrArg Except.ok (Prod.ext ?_ ?_)
    · show done ++ layerBytes l ++ layersBytes rest
        = done ++ layersBytes (l :: rest)
      rw [layersBytes, List.append_assoc]
    · show (done ++ layerBytes l).length + (layersBytes rest).length
        = done.length + r
      rw [List.length_append, hlb]
      omega

theorem writeInflatedBuffer_eq {img : Image} (h : ImageWf32 img = true) :
    writeInflatedBuffer img = .ok (imageBytes img) := by
  obtain ⟨hv, hn, hls⟩ := ImageWf32_spec h
  have hsize : encodedSize img = 8 + (layersBytes img.layers).length := by
    rw [encodedSize, layersBytes_length]
  simp only [writeInflatedBuffer]
  rw [bufWriteU32_at hv ([] : List ℕ) (List.nil_append _).symm
    (show (0 : ℕ) = ([] : List ℕ).length from rfl) (by omega), ok_bind,
    List.nil_append]
  rw [bufWriteU32_at (u32Ok_natCast hn) (u32Bytes (toIdx img.version))
    rfl (u32Bytes_length _).symm (by omega), ok_bind]
  rw [show (8 : ℕ)
      = (u32Bytes (toIdx img.version)
          ++ u32Bytes (toIdx (img.layers.length : ℚ))).length by
    simp [u32Bytes_length]]
  rw [writeLayers_append img.layers _ (encodedSize img - 4 - 4) hls
    (by omega)]
  rw [ok_bind]
  have hoff : (u32Bytes (toIdx img.version)
        ++ u32Bytes (toIdx (img.layers.length : ℚ))).length
        + (encodedSize img - 4 - 4)
      = encodedSize img := by
    simp [u32Bytes_length]
    omega
  rw [hoff]
  simp [imageBytes, toIdx_natCast, List.append_assoc]

theorem get?_append_chunk (pre l post : List ℕ) {j : ℕ} (h : j < l.length) :
    (pre ++ (l ++ post)).get? (pre.length + j) = l.get? j := by
  rw [List.get?_eq_getElem?,
    List.getElem?_append_right (Nat.le_add_right _ _),
    Nat.add_sub_cancel_left, List.getElem?_append_left h,
    ← List.get?_eq_getElem?]

theorem readU32_at {pre rest : List ℕ} {n : ℕ} (h : n < 4294967296) :
    readU32 (pre ++ (u32Bytes n ++ rest)) pre.length = some n := by
  have g0 : (pre ++ (u32Bytes n ++ rest)).get? pre.length
      = some (n % 256) := by
    have hg := get?_append_chunk pre (u32Bytes n) rest
      (j := 0) (by rw [u32Bytes_length]; omega)
    simpa [u32Bytes] using hg
  have g1 : (pre ++ (u32Bytes n ++ rest)).get? (pre.length + 1)
      = some (n / 256 % 256) := by
    have hg := get?_append_chunk pre (u32Bytes n) rest
      (j := 1) (by rw [u32Bytes_length]; omega)
    simpa [u32Bytes] using hg
  have g2 : (pre ++ (u32Bytes n ++ rest)).get? (pre.length + 2)
      = some (n / 65536 % 256) := by
    have hg := get?_append_chunk pre (u32Bytes n) rest
      (j := 2) (by rw [u32Bytes_length]; omega)
    simpa [u32Bytes] using hg
  have g3 : (pre ++ (u32Bytes n ++ rest)).get? (pre.length + 3)
      = some (n / 16777216 % 256) := by
    have hg := get?_append_chunk pre (u32Bytes n) rest
      (j := 3) (by rw [u32Bytes_length]; omega)
    simpa [u32Bytes] using hg
  rw [readU32, g0, some_bind, g1, some_bind, g2, some_bind, g3, some_bind]
  congr 1
  omega

theorem readU32_at' {buf : List ℕ} {off n : ℕ} (pre rest : List ℕ)
    (hbuf : buf = pre ++ (u32Bytes n ++ rest)) (hoff : off = pre.length)
    (h : n < 4294967296) : readU32 buf off = some n := by
  rw [hbuf, hoff]
  exact readU32_at h

theorem readU8_at {buf : List ℕ} {off v : ℕ} (pre : List ℕ)
    {l post : List ℕ} {j : ℕ} (hbuf : buf = pre ++ (l ++ post))
    (hoff : off = pre.length + j) (hj : j < l.length)
    (hv : l.get? j = some v) : readU8 buf off = some v := by
  rw [readU8, hbuf, hoff, get?_append_chunk pre l post hj, hv]

theorem Color.mk?_toIdx {c : Color} (h : ColorWf c = true) :
    Color.mk? ((toIdx c.r : ℕ) : ℚ) ((toIdx c.g : ℕ) : ℚ)
      ((toIdx c.b : ℕ) : ℚ) = some c := by
  obtain ⟨h1, h2, h3⟩ := ColorWf_spec h
  rw [natCast_toIdx (channelOk_spec h1).1 (channelOk_spec h1).2.1,
    natCast_toIdx (channelOk_spec h2).1 (channelOk_spec h2).2.1,
    natCast_toIdx (channelOk_spec h3).1 (channelOk_spec h3).2.1]
  have h' : (channelOk c.r && channelOk c.g && channelOk c.b) = true := by
    simp [h1, h2, h3]
  rw [Color.mk?, if_pos h']

theorem readPixel_at {p : Pixel} (hwf : PixelWf32 p = true)
    (pre post : List ℕ) :
    readPixel (pre ++ (pixelBytes p ++ post)) pre.length
      = some (p, pre.length + 10) := by
  have hwfp := PixelWf32_toPixelWf hwf
  obtain ⟨ha, hf1, hf2, hf3, hg1, hg2, hg3⟩ := PixelWf32_spec hwf
  obtain ⟨_, _, hcf, hcg, _⟩ := PixelWf_spec hwfp
  have hU32 : readU32 (pre ++ (pixelBytes p ++ post)) pre.length
      = some (toIdx p.asciiCode) :=
    readU32_at' pre
      ([toIdx p.fg.r, toIdx p.fg.g, toIdx p.fg.b,
        toIdx p.bg.r, toIdx p.bg.g, toIdx p.bg.b] ++ post)
      (by rw [pixelBytes]; simp [List.append_assoc]) rfl
      (u32Ok_toIdx_lt ha)
  have hrd : ∀ j v, j < 10 → (pixelBytes p).get? j = some v →
      readU8 (pre ++ (pixelBytes p ++ post)) (pre.length + j) = some v :=
    fun j v hj hv =>
      readU8_at pre rfl rfl (by rw [pixelBytes_length]; omega) hv
  have h4 := hrd 4 (toIdx p.fg.r) (by omega) (by simp [pixelBytes, u32Bytes])
  have h5 := hrd 5 (toIdx p.fg.g) (by omega) (by simp [pixelBytes, u32Bytes])
  have h6 := hrd 6 (toIdx p.fg.b) (by omega) (by simp [pixelBytes, u32Bytes])
  have h7 := hrd 7 (toIdx p.bg.r) (by omega) (by simp [pixelBytes, u32Bytes])
  have h8 := hrd 8 (toIdx p.bg.g) (by omega) (by simp [pixelBytes, u32Bytes])
  have h9 := hrd 9 (toIdx p.bg.b) (by omega) (by simp [pixelBytes, u32Bytes])
  rw [readPixel, hU32, some_bind, h4, some_bind, h5, some_bind, h6,
    some_bind, Color.mk?_toIdx hcf, some_bind, h7, some_bind, h8, some_bind,
    h9, some_bind, Color.mk?_toIdx hcg, some_bind,
    natCast_toIdx (u32Ok_spec ha).1 (u32Ok_spec ha).2.1,
    Pixel.mk?_self hwfp, some_bind]

theorem readPixel_at' {p : Pixel} (hwf : PixelWf32 p = true) {buf : List ℕ}
    {off : ℕ} (pre post : List ℕ)
    (hbuf : buf = pre ++ (pixelBytes p ++ post)) (hoff : off = pre.length) :
    readPixel buf off = some (p, off + 10) := by
  rw [hbuf, hoff]
  exact readPixel_at hwf pre post

theorem readPixelsY_ok (l : Layer) (x : ℕ) :
    ∀ (yc : ℕ) (acc : Layer) (buf : List ℕ) (off : ℕ) (pre post : List ℕ),
      buf = pre ++ (pixColBytes l x yc ++ post) → off = pre.length →
      x < acc.width → yc ≤ acc.height →
      acc.raster.length = acc.width * acc.height →
      (∀ y < yc, ∃ p, l.get (x : ℚ) (y : ℚ) = some p ∧ PixelWf32 p = true) →
      ∃ acc', readPixelsY buf x yc acc off = some (acc', off + 10 * yc)
        ∧ acc'.width = acc.width ∧ acc'.height = acc.height
        ∧ acc'.raster.length = acc.raster.length
        ∧ ∀ x' y', x' < acc.width → y' < acc.height →
            acc'.raster.getD (x' + acc.width * y') none
              = if x' = x ∧ y' < yc then l.get (x : ℚ) (y' : ℚ)
                else acc.raster.getD (x' + acc.width * y') none
  | 0, acc, buf, off, pre, post, hbuf, hoff, hx, hyc, hlen, hsrc =>
    ⟨acc, rfl, rfl, rfl, rfl, fun x' y' _ _ => by simp⟩
  | yc + 1, acc, buf, off, pre, post, hbuf, hoff, hx, hyc, hlen, hsrc => by
    obtain ⟨p, hp, hpwf⟩ := hsrc yc (Nat.lt_succ_self yc)
    obtain ⟨acc1, h1run, h1w, h1h, h1len, h1pt⟩ :=
      readPixelsY_ok l x yc acc buf off pre
        (pixelBytes p ++ post)
        (by rw [hbuf]
            simp only [pixColBytes, hp, Option.getD_some, List.append_assoc])
        hoff hx (by omega) hlen
        (fun y hy => hsrc y (Nat.lt_succ_of_lt hy))
    have hxlt : x < acc1.width := by rw [h1w]; exact hx
    have hylt : yc < acc1.height := by rw [h1h]; omega
    have hset : acc1.set (x : ℚ) (yc : ℚ) p
        = ({ acc1 with
            raster := acc1.raster.set (x + acc1.width * yc) (some p) },
          true) := Layer.set_natCast hxlt hylt p
    have hjlen : x + acc1.width * yc < acc1.raster.length := by
      rw [h1len, hlen, h1w]
      exact idx_lt hx (by omega)
    refine ⟨(acc1.set (x : ℚ) (yc : ℚ) p).1, ?_, ?_, ?_, ?_, ?_⟩
    · rw [readPixelsY, h1run, some_bind]
      simp only []
      rw [readPixel_at' hpwf (pre ++ pixColBytes l x yc) post
        (by rw [hbuf]
            simp only [pixColBytes, hp, Option.getD_some, List.append_assoc])
        (by rw [hoff, List.length_append, pixColBytes_length]),
        some_bind]
      refine congrArg some (Prod.ext rfl ?_)
      show off + 10 * yc + 10 = off + 10 * (yc + 1)
      omega
    · rw [hset]; exact h1w
    · rw [hset]; exact h1h
    · rw [hset]
      show (acc1.raster.set (x + acc1.width * yc) (some p)).length
          = acc.raster.length
      rw [List.length_set]; exact h1len
    · intro x' y' hx' hy'
      rw [hset]
      show (acc1.raster.set (x + acc1.width * yc) (some p)).getD
          (x' + acc.width * y') none = _
      rw [← h1w]
      by_cases hj : x' + acc1.width * y' = x + acc1.width * yc
      · obtain ⟨hxx, hyy⟩ := idx_inj (by rw [h1w]; exact hx') hxlt hj
        subst hxx; subst hyy
        rw [hj, getD_set_self hjlen (some p), if_pos ⟨rfl, by omega⟩, hp]
      · rw [getD_set_ne (fun hne => hj hne.symm) (some p)]
        have h1pt' := h1pt x' y' hx' hy'
        rw [← h1w] at h1pt'
        rw [h1pt']
        by_cases hc : x' = x ∧ y' < yc
        · rw [if_pos hc, if_pos ⟨hc.1, by omega⟩]
        · rw [if_neg hc, if_neg ?_]
          rintro ⟨hxx, hyy⟩
          subst hxx
          have hyy' : y' = yc := by
            rcases Nat.lt_succ_iff_lt_or_eq.1 hyy with hlt | heq
            · exact absurd ⟨rfl, hlt⟩ hc
            · exact heq
          exact hj (by rw [hyy'])

theorem readPixelsX_ok (l : Layer) :
    ∀ (xc : ℕ) (acc : Layer) (buf : List ℕ) (off : ℕ) (pre post : List ℕ),
      buf = pre ++ (pixAllBytes l xc ++ post) → off = pre.length →
      xc ≤ acc.width → acc.height = l.height →
      acc.raster.length = acc.width * acc.height →
      (∀ x < xc, ∀ y < l.height,
        ∃ p, l.get (x : ℚ) (y : ℚ) = some p ∧ PixelWf32 p = true) →
      ∃ acc', readPixelsX buf l.height xc acc off
          = some (acc', off + 10 * l.height * xc)
        ∧ acc'.width = acc.width ∧ acc'.height = acc.height
        ∧ acc'.raster.length = acc.raster.length
        ∧ ∀ x' y', x' < acc.width → y' < acc.height →
            acc'.raster.getD (x' + acc.width * y') none
              = if x' < xc then l.get (x' : ℚ) (y' : ℚ)
                else acc.raster.getD (x' + acc.width * y') none
  | 0, acc, buf, off, pre, post, hbuf, hoff, hxc, hach, hlen, hsrc =>
    ⟨acc, rfl, rfl, rfl, rfl, fun x' y' _ _ => by simp⟩
  | xc + 1, acc, buf, off, pre, post, hbuf, hoff, hxc, hach, hlen, hsrc => by
    have hexp : 10 * l.height * (xc + 1)
        = 10 * l.height * xc + 10 * l.height := by ring
    obtain ⟨acc1, h1run, h1w, h1h, h1len, h1pt⟩ :=
      readPixelsX_ok l xc acc buf off pre
        (pixColBytes l xc l.height ++ post)
        (by rw [hbuf]; simp only [pixAllBytes, List.append_assoc]) hoff
        (by omega) hach hlen (fun x hx => hsrc x (by omega))
    obtain ⟨acc2, h2run, h2w, h2h, h2len, h2pt⟩ :=
      readPixelsY_ok l xc l.height acc1 buf (off + 10 * l.height * xc)
        (pre ++ pixAllBytes l xc) post
        (by rw [hbuf]; simp only [pixAllBytes, List.append_assoc])
        (by rw [hoff, List.length_append, pixAllBytes_length])
        (by rw [h1w]; omega) (by rw [h1h, hach])
        (by rw [h1len, hlen, h1w, h1h])
        (fun y hy => hsrc xc (Nat.lt_succ_self xc) y hy)
    refine ⟨acc2, ?_, by rw [h2w, h1w], by rw [h2h, h1h],
      by rw [h2len, h1len], fun x' y' hx' hy' => ?_⟩
    · rw [readPixelsX, h1run, some_bind]
      simp only []
      rw [h2run]
      refine congrArg some (Prod.ext rfl ?_)
      show off + 10 * l.height * xc + 10 * l.height
          = off + 10 * l.height * (xc + 1)
      omega
    · have h2pt' := h2pt x' y' (by rw [h1w]; exact hx') (by rw [h1h]; exact hy')
      rw [h1w] at h2pt'
      rw [h2pt', h1pt x' y' hx' hy']
      by_cases hxx : x' = xc
      · subst hxx
        rw [if_pos ⟨rfl, by rw [← hach]; exact hy'⟩,
          if_pos (Nat.lt_succ_self x')]
      · rw [if_neg (fun hc => hxx hc.1)]
        by_cases hlt : x' < xc
        · rw [if_pos hlt, if_pos (by omega)]
        · rw [if_neg hlt, if_neg (by omega)]

theorem Layer.eq_of_pointwise {a b : Layer} (hw : a.width = b.width)
    (hh : a.height = b.height)
    (hal : a.raster.length = a.width * a.height)
    (hbl : b.raster.length = b.width * b.height)
    (hpt : ∀ x < a.width, ∀ y < a.height,
        a.raster.getD (x + a.width * y) none
          = b.raster.getD (x + a.width * y) none) : a = b := by
  obtain ⟨aw, ah, ar⟩ := a
  obtain ⟨bw, bh, br⟩ := b
  simp only at hw hh hal hbl hpt
  subst hw
  subst hh
  congr 1
  apply List.ext_getElem?
  intro i
  by_cases hi : i < aw * ah
  · have hw0 : 0 < aw := by
      rcases Nat.eq_zero_or_pos aw with h0 | h0
      · subst h0; simp at hi
      · exact h0
    have hx : i % aw < aw := Nat.mod_lt _ hw0
    have hy : i / aw < ah := by
      rw [Nat.div_lt_iff_lt_mul hw0, Nat.mul_comm]
      exact hi
    have hdecomp : i % aw + aw * (i / aw) = i := Nat.mod_add_div i aw
    have h1 := hpt (i % aw) hx (i / aw) hy
    rw [hdecomp] at h1
    have hia : i < ar.length := by rw [hal]; exact hi
    have hib : i < br.length := by rw [hbl]; exact hi
    rw [List.getD_eq_getElem?_getD, List.getD_eq_getElem?_getD,
      List.getElem?_eq_getElem hia, List.getElem?_eq_getElem hib] at h1
    rw [List.getElem?_eq_getElem hia, List.getElem?_eq_getElem hib]
    simpa using h1
  · rw [List.getElem?_eq_none (by rw [hal]; omega),
      List.getElem?_eq_none (by rw [hbl]; omega)]

theorem readPixelsX_full {l : Layer} (hwf : LayerWf32 l = true)
    {buf : List ℕ} {off : ℕ} (pre post : List ℕ)
    (hbuf : buf = pre ++ (pixAllBytes l l.width ++ post))
    (hoff : off = pre.length) :
    readPixelsX buf l.height l.width (Layer.new l.width l.height) off
      = some (l, off + 10 * l.height * l.width) := by
  obtain ⟨hw, hh, hlen, hslots⟩ := LayerWf32_spec hwf
  obtain ⟨acc', hrun, haw, hah, halen, hpt⟩ :=
    readPixelsX_ok l l.width (Layer.new l.width l.height) buf off
      pre post hbuf hoff
      (le_refl _) rfl (by simp [Layer.new])
      (fun x hx y hy => slot_present32 hlen hslots hx hy)
  have hacc : acc' = l := by
    simp only [Layer.new] at haw hah halen hpt
    refine Layer.eq_of_pointwise haw hah ?_ hlen ?_
    · rw [halen, haw, hah]
      simp
    · intro x hx y hy
      have hx' : x < l.width := by rw [← haw]; exact hx
      have hy' : y < l.height := by rw [← hah]; exact hy
      rw [haw, hpt x y hx' hy', if_pos hx', Layer.get_natCast hx' hy']
  rw [hrun, hacc]

theorem readLayers_ok :
    ∀ (ls : List Layer) {buf : List ℕ} {off : ℕ} (pre post : List ℕ),
      (∀ l ∈ ls, LayerWf32 l = true) →
      buf = pre ++ (layersBytes ls ++ post) → off = pre.length →
      readLayers buf ls.length off
        = some (ls, off + (layersBytes ls).length)
  | [], buf, off, pre, post, hwf, hbuf, hoff => by
    simp [readLayers, layersBytes]
  | l :: rest, buf, off, pre, post, hwf, hbuf, hoff => by
    obtain ⟨hw, hh, hlen, hslots⟩ := LayerWf32_spec (hwf l (.head rest))
    have hcomm : 10 * l.height * l.width = 10 * l.width * l.height := by ring
    simp only [List.length_cons, readLayers]
    rw [readU32_at' pre
        (u32Bytes l.height ++ (pixAllBytes l l.width
          ++ (layersBytes rest ++ post)))
        (by rw [hbuf]; simp [layersBytes, layerBytes, List.append_assoc])
        hoff hw, some_bind]
    rw [readU32_at' (pre ++ u32Bytes l.width)
        (pixAllBytes l l.width ++ (layersBytes rest ++ post))
        (by rw [hbuf]; simp [layersBytes, layerBytes, List.append_assoc])
        (by rw [hoff, List.length_append, u32Bytes_length]) hh, some_bind]
    rw [readPixelsX_full (hwf l (.head rest))
        (pre ++ u32Bytes l.width ++ u32Bytes l.height)
        (layersBytes rest ++ post)
        (by rw [hbuf]; simp [layersBytes, layerBytes, List.append_assoc])
        (by rw [hoff]; simp [u32Bytes_length]), some_bind]
    simp only []
    rw [readLayers_ok rest (pre ++ layerBytes l) post
        (fun x hx => hwf x (.tail l hx))
        (by rw [hbuf]; simp [layersBytes, List.append_assoc])
        (by rw [hoff, List.length_append, layerBytes_length]; omega),
      some_bind]
    refine congrArg some (Prod.ext rfl ?_)
    show off + 8 + 10 * l.height * l.width + (layersBytes rest).length
        = off + (layersBytes (l :: rest)).length
    rw [layersBytes, List.length_append, layerBytes_length]
    omega

theorem loadInflatedBuffer_eq {img : Image} (h : ImageWf32 img = true) :
    loadInflatedBuffer (imageBytes img) = some img := by
  obtain ⟨hv, hn, hls⟩ := ImageWf32_spec h
  rw [loadInflatedBuffer]
  rw [readU32_at' []
      (u32Bytes img.layers.length ++ layersBytes img.layers)
      (by simp [imageBytes, List.append_assoc])
      (show (0 : ℕ) = ([] : List ℕ).length from rfl) (u32Ok_toIdx_lt hv),
    some_bind]
  rw [readU32_at' (u32Bytes (toIdx img.version)) (layersBytes img.layers)
      (by simp [imageBytes, List.append_assoc])
      (show (4 : ℕ) = (u32Bytes (toIdx img.version)).length from rfl) hn,
    some_bind]
  rw [readLayers_ok img.layers
      (u32Bytes (toIdx img.version) ++ u32Bytes img.layers.length) [] hls
      (by simp [imageBytes, List.append_assoc])
      (show (8 : ℕ) = (u32Bytes (toIdx img.version)
          ++ u32Bytes img.layers.length).length by simp [u32Bytes_length]),
    some_bind]
  simp only []
  rw [natCast_toIdx (u32Ok_spec hv).1 (u32Ok_spec hv).2.1]

/-! ## C1: encode/decode round-trip -/

/-- C1: for every image the encoder accepts (valid version, fully populated
rasters, valid colors, glyph codes below `2^32`), decoding the byte stream
produced by `writeInflatedBuffer` with `loadInflatedBuffer` reconstructs the
image exactly: same version, same layers, and hence the same width, height
and per-coordinate glyph/foreground/background for every layer. -/
theorem codec_roundtrip (img : Image) (h : ImageWf32 img = true) :
    ∃ bs, writeInflatedBuffer img = .ok bs
      ∧ loadInflatedBuffer bs = some img :=
  ⟨imageBytes img, writeInflatedBuffer_eq h, loadInflatedBuffer_eq h⟩

theorem codec_roundtrip_witness :
    ImageWf32 wImgCodec = true
    ∧ ∃ bs, writeInflatedBuffer wImgCodec = .ok bs
        ∧ loadInflatedBuffer bs = some wImgCodec :=
  ⟨by decide, codec_roundtrip wImgCodec (by decide)⟩

/-! ## C3: exact encoded size, internal-consistency branch unreachable -/

/-- C3: on every image whose layers are fully populated with valid pixels
(and whose header fields fit the wire format), `writeInflatedBuffer`
produces exactly `8 + Σ (8 + 10*width*height)` bytes, so the
internal-consistency `Error` branch (offset ≠ precomputed size) is never
taken. -/
theorem encode_size_exact (img : Image) (h : ImageWf32 img = true) :
    (∃ bs, writeInflatedBuffer img = .ok bs ∧ bs.length = encodedSize img)
    ∧ writeInflatedBuffer img ≠ .error .internalError :=
  ⟨⟨imageBytes img, writeInflatedBuffer_eq h, imageBytes_length img⟩,
    by rw [writeInflatedBuffer_eq h]; exact fun hc => Except.noConfusion hc⟩

theorem encode_size_exact_witness :
    ImageWf32 wImgCodec = true
    ∧ ((∃ bs, writeInflatedBuffer wImgCodec = .ok bs
          ∧ bs.length = encodedSize wImgCodec)
      ∧ writeInflatedBuffer wImgCodec ≠ .error .internalError) :=
  ⟨by decide, encode_size_exact wImgCodec (by decide)⟩

end RexPaint
